import Mathlib

/-!
# Verification of the DevFormat JSON/YAML formatter core (`src/main.js`)

This file gives a shallow embedding of the Sync Controller / Document
Formatter core of the DevFormat application (`src/main.js`, the CodeMirror
variant) and proves the frozen specification claims against it.

Modelling conventions:
* JavaScript strings are Lean `String`s; the JS builtins the code uses
  (`trim`, `trimEnd`, `split('\n')`, `Array.join`, `Blob([s]).size`,
  `toFixed(1)`) are modelled by the `js*` definitions below.
* The two JSON engine builtins `JSON.parse` / `JSON.stringify` are modelled
  by an executable recursive-descent parser and printer over a JSON value
  type (`JVal`).  Numbers are modelled as integers and strings as escape-free
  character runs: the engine's IEEE-754 number formatting and escape
  sequences are outside the shallow embedding.
* The YAML engine (`js-yaml`'s `loadAll` / `dump`) is an external black box;
  `processYAML` is parameterised over an engine record, exactly mirroring how
  the source calls `jsyaml.loadAll` and `jsyaml.dump`.
* A Format Session (one per format) is a record of the two pane documents,
  the two persisted store keys, the status bar, the pending debounce timer
  and the focus flag.  CodeMirror's `updateListener` fires its `onChange`
  callback for every dispatched transaction whose change set is non-empty,
  including the programmatic `setEditorDoc` dispatches; this is modelled by
  `docChangedFires`.
-/

/-! ## Models of the JavaScript string builtins used by `main.js` -/

/-- Whitespace as recognised by JS `String.prototype.trim` / `trimEnd`
(the characters relevant to this application). -/
def jsIsWs (c : Char) : Bool :=
  decide (c = ' ' ∨ c = '\t' ∨ c = '\n' ∨ c = '\r' ∨ c = '\x0b' ∨ c = '\x0c')

/-- Drop trailing `jsIsWs` characters from a character list. -/
def trimEndData (l : List Char) : List Char :=
  (l.reverse.dropWhile jsIsWs).reverse

/-- Model of JS `String.prototype.trimEnd`. -/
def jsTrimEnd (s : String) : String :=
  ⟨trimEndData s.data⟩

/-- Model of JS `String.prototype.trim` (both ends). -/
def jsTrim (s : String) : String :=
  ⟨trimEndData (s.data.dropWhile jsIsWs)⟩

/-- Split a character list at every occurrence of `c`
(the separators are consumed; `n+1` pieces for `n` separators). -/
def splitOnCharData (c : Char) : List Char → List (List Char)
  | [] => [[]]
  | a :: rest =>
    if a = c then [] :: splitOnCharData c rest
    else
      match splitOnCharData c rest with
      | [] => [[a]]
      | h :: t => (a :: h) :: t

/-- Model of JS `String.prototype.split('\n')`, which `main.js` uses both for
the status line count and which we use to talk about the lines of the
canonical output. -/
def jsSplitLines (s : String) : List String :=
  (splitOnCharData '\n' s.data).map (fun l => ⟨l⟩)

/-- Model of JS `Array.prototype.join(sep)`. -/
def jsJoin (sep : String) : List String → String
  | [] => ""
  | [x] => x
  | x :: xs => x ++ sep ++ jsJoin sep xs

/-- Model of `new Blob([s]).size`: the UTF-8 byte length of the string. -/
def blobSize (s : String) : Nat :=
  s.utf8ByteSize

/-- Model of `(size / 1024).toFixed(1)` for the kilobyte display: one decimal
digit, rounding to nearest (ties away from zero, as `toFixed` does on the
exactly representable quotients; IEEE-754 rounding of inexact quotients is
outside the embedding). -/
def jsToFixed1Kb (size : Nat) : String :=
  let t := (size * 10 + 512) / 1024
  toString (t / 10) ++ "." ++ toString (t % 10)

/-- The size part of the status line:
`` size > 1024 ? `${(size/1024).toFixed(1)} KB` : `${size} B` ``. -/
def sizeStrOf (formatted : String) : String :=
  let size := blobSize formatted
  if size > 1024 then jsToFixed1Kb size ++ " KB" else toString size ++ " B"

/-- The `ok` status message after a successful format:
`` `Valid ${label} · ${lines} lines · ${sizeStr}` `` with
`lines = formatted.split('\n').length`. -/
def okStatusMsg (label formatted : String) : String :=
  "Valid " ++ label ++ " · " ++ toString (jsSplitLines formatted).length
    ++ " lines · " ++ sizeStrOf formatted

/-! ## The JSON engine model (`JSON.parse` / `JSON.stringify`)

`JVal` is the value universe.  Numbers are integers (decimal integer
literals; the engine's floats are outside the embedding) and strings are
runs of characters that need no escaping.  `JSON.parse` builds objects by
sequential property assignment, so a repeated key overwrites the earlier
value in place (`objInsert`). -/

/-- JSON values as produced by the modelled engine. -/
inductive JVal where
  | null
  | bool (b : Bool)
  | num (n : Int)
  | str (s : String)
  | arr (elems : List JVal)
  | obj (fields : List (String × JVal))
deriving Repr

/-- JSON's token whitespace (`ws` in RFC 8259). -/
def jsonWs (c : Char) : Bool :=
  decide (c = ' ' ∨ c = '\t' ∨ c = '\n' ∨ c = '\r')

/-- Skip JSON whitespace. -/
def skipWs : List Char → List Char
  | [] => []
  | c :: rest => if jsonWs c then skipWs rest else c :: rest

/-- The body of a JSON string up to the closing quote.  Escapes and control
characters are outside the modelled subset and are rejected. -/
def parseStringBody : List Char → Option (List Char × List Char)
  | [] => none
  | c :: rest =>
    if c = '"' then some ([], rest)
    else if c = '\\' ∨ c.toNat < 32 then none
    else
      match parseStringBody rest with
      | some (cs, r) => some (c :: cs, r)
      | none => none

/-- Longest prefix of decimal digits. -/
def takeDigits : List Char → (List Char × List Char)
  | [] => ([], [])
  | c :: rest =>
    if c.isDigit then
      let (ds, r) := takeDigits rest
      (c :: ds, r)
    else ([], c :: rest)

/-- The numeric value of a digit run. -/
def digitsToNat (ds : List Char) : Nat :=
  ds.foldl (fun a c => a * 10 + (c.toNat - 48)) 0

/-- The digit run of an integer literal, after the sign has been read:
digits with no leading zero (except the literal `0` itself). -/
def parseNumberCore (neg : Bool) (l1 : List Char) : Option (Int × List Char) :=
  match takeDigits l1 with
  | (ds, rest) =>
    if ds = [] then none
    else if ds.head? = some '0' ∧ 1 < ds.length then none
    else some (if neg then -(digitsToNat ds : Int) else (digitsToNat ds : Int), rest)

/-- Parse a JSON integer literal: optional minus, then the digit run. -/
def parseNumber (l : List Char) : Option (Int × List Char) :=
  match l with
  | [] => none
  | c :: r =>
    if c = '-' then parseNumberCore true r else parseNumberCore false (c :: r)

/-- Sequential property assignment on a JS object literal: a repeated key
replaces the earlier value in place, a new key is appended. -/
def objInsert : List (String × JVal) → String → JVal → List (String × JVal)
  | [], k, v => [(k, v)]
  | (k1, v1) :: fs, k, v =>
    if k1 = k then (k, v) :: fs else (k1, v1) :: objInsert fs k v

mutual

/-- Recursive-descent model of `JSON.parse`, fuelled: every recursive call
spends one unit, and the top level supplies more fuel than any input can
consume.  The dispatch is on the first non-whitespace character. -/
def parseValue : Nat → List Char → Except String (JVal × List Char)
  | 0, _ => .error "Maximum call stack size exceeded"
  | fuel + 1, l =>
    match skipWs l with
    | [] => .error "Unexpected end of JSON input"
    | c :: r =>
      if c = 'n' then
        match r with
        | 'u' :: 'l' :: 'l' :: r1 => .ok (.null, r1)
        | _ => .error "Unexpected token in JSON"
      else if c = 't' then
        match r with
        | 'r' :: 'u' :: 'e' :: r1 => .ok (.bool true, r1)
        | _ => .error "Unexpected token in JSON"
      else if c = 'f' then
        match r with
        | 'a' :: 'l' :: 's' :: 'e' :: r1 => .ok (.bool false, r1)
        | _ => .error "Unexpected token in JSON"
      else if c = '"' then
        match parseStringBody r with
        | some (cs, r1) => .ok (.str ⟨cs⟩, r1)
        | none => .error "Unterminated string in JSON"
      else if c = '[' then
        match skipWs r with
        | [] => .error "Unexpected end of JSON input"
        | c1 :: r1 =>
          if c1 = ']' then .ok (.arr [], r1)
          else
            match parseElems fuel r with
            | .ok (vs, r2) => .ok (.arr vs, r2)
            | .error e => .error e
      else if c = '{' then
        match skipWs r with
        | [] => .error "Unexpected end of JSON input"
        | c1 :: r1 =>
          if c1 = '}' then .ok (.obj [], r1)
          else
            match parseFields fuel [] r with
            | .ok (fs, r2) => .ok (.obj fs, r2)
            | .error e => .error e
      else
        match parseNumber (c :: r) with
        | some (n, r1) => .ok (.num n, r1)
        | none => .error "Unexpected token in JSON"

/-- The elements of a non-empty array, after the opening bracket. -/
def parseElems : Nat → List Char → Except String (List JVal × List Char)
  | 0, _ => .error "Maximum call stack size exceeded"
  | fuel + 1, l =>
    match parseValue fuel l with
    | .error e => .error e
    | .ok (v, r) =>
      match skipWs r with
      | [] => .error "Unexpected end of JSON input"
      | c :: r1 =>
        if c = ',' then
          match parseElems fuel r1 with
          | .ok (vs, r2) => .ok (v :: vs, r2)
          | .error e => .error e
        else if c = ']' then .ok ([v], r1)
        else .error "Expected comma or bracket after array element"

/-- The fields of a non-empty object, after the opening brace, accumulated
by `objInsert` the way JS assigns properties. -/
def parseFields : Nat → List (String × JVal) → List Char →
    Except String (List (String × JVal) × List Char)
  | 0, _, _ => .error "Maximum call stack size exceeded"
  | fuel + 1, acc, l =>
    match skipWs l with
    | [] => .error "Unexpected end of JSON input"
    | c :: r =>
      if c = '"' then
        match parseStringBody r with
        | none => .error "Unterminated string in JSON"
        | some (cs, r1) =>
          match skipWs r1 with
          | [] => .error "Unexpected end of JSON input"
          | c1 :: r2 =>
            if c1 = ':' then
              match parseValue fuel r2 with
              | .error e => .error e
              | .ok (v, r3) =>
                let acc1 := objInsert acc ⟨cs⟩ v
                match skipWs r3 with
                | [] => .error "Unexpected end of JSON input"
                | c2 :: r4 =>
                  if c2 = ',' then
                    match parseFields fuel acc1 r4 with
                    | .ok (fs, r5) => .ok (fs, r5)
                    | .error e => .error e
                  else if c2 = '}' then .ok (acc1, r4)
                  else .error "Expected comma or brace after object member"
            else .error "Expected colon after object key"
      else .error "Expected string key in object"

end

/-- Model of `JSON.parse`: parse one value and insist nothing but whitespace
follows.  The fuel is ample for any input of this length. -/
def JSONparse (s : String) : Except String JVal :=
  match parseValue (2 * s.data.length + 2) s.data with
  | .ok (v, rest) =>
    if skipWs rest = [] then .ok v
    else .error "Unexpected non-whitespace character after JSON data"
  | .error e => .error e

/-- The decimal digits of `n`, most significant first. -/
def natToDigits (n : Nat) : List Char :=
  if _h : n < 10 then [Char.ofNat (48 + n)]
  else natToDigits (n / 10) ++ [Char.ofNat (48 + n % 10)]
termination_by n
decreasing_by exact Nat.div_lt_self (by omega) (by omega)

/-- The decimal rendering of an integer, as `JSON.stringify` writes one. -/
def intChars (i : Int) : List Char :=
  if i < 0 then '-' :: natToDigits i.natAbs else natToDigits i.toNat

/-- `2 * d` spaces: the indentation at nesting depth `d` for
`JSON.stringify(v, null, 2)`. -/
def indData (d : Nat) : List Char :=
  List.replicate (2 * d) ' '

mutual

/-- Model of `JSON.stringify(v, null, 2)` at nesting depth `d`, as the
character list of the produced text. -/
def serPrettyData (d : Nat) : JVal → List Char
  | .null => "null".data
  | .bool true => "true".data
  | .bool false => "false".data
  | .num i => intChars i
  | .str s => '"' :: (s.data ++ ['"'])
  | .arr [] => ['[', ']']
  | .arr (x :: xs) =>
    '[' :: '\n' :: (serElemsData (d + 1) x xs ++ '\n' :: (indData d ++ [']']))
  | .obj [] => ['{', '}']
  | .obj (f :: fs) =>
    '{' :: '\n' :: (serFieldsData (d + 1) f fs ++ '\n' :: (indData d ++ ['}']))
termination_by v => sizeOf v
decreasing_by all_goals simp_wf; all_goals try omega

/-- The comma-and-newline separated, indented elements of a non-empty
array. -/
def serElemsData (d : Nat) : JVal → List JVal → List Char
  | x, [] => indData d ++ serPrettyData d x
  | x, y :: ys =>
    indData d ++ (serPrettyData d x ++ ',' :: '\n' :: serElemsData d y ys)
termination_by x xs => sizeOf x + sizeOf xs
decreasing_by all_goals simp_wf; all_goals try omega

/-- The comma-and-newline separated, indented `"key": value` members of a
non-empty object. -/
def serFieldsData (d : Nat) : (String × JVal) → List (String × JVal) → List Char
  | (k, v), [] =>
    indData d ++ ('"' :: (k.data ++ '"' :: ':' :: ' ' :: serPrettyData d v))
  | (k, v), f :: fs =>
    indData d ++ ('"' :: (k.data ++ '"' :: ':' :: ' ' ::
      (serPrettyData d v ++ ',' :: '\n' :: serFieldsData d f fs)))
termination_by f fs => sizeOf f + sizeOf fs
decreasing_by all_goals simp_wf; all_goals try omega

end

/-- Model of `JSON.stringify(parsed, null, 2)`. -/
def JSONstringifyPretty (v : JVal) : String :=
  ⟨serPrettyData 0 v⟩

mutual

/-- Model of `JSON.stringify(v)` (the minified form). -/
def serCompact : JVal → String
  | .null => "null"
  | .bool b => if b then "true" else "false"
  | .num i => ⟨intChars i⟩
  | .str s => "\"" ++ s ++ "\""
  | .arr [] => "[]"
  | .arr (x :: xs) => "[" ++ serElemsCompact x xs ++ "]"
  | .obj [] => "{}"
  | .obj (f :: fs) => "\x7b" ++ serFieldsCompact f fs ++ "\x7d"
termination_by v => sizeOf v
decreasing_by all_goals simp_wf; all_goals try omega

/-- Comma separated minified array elements. -/
def serElemsCompact : JVal → List JVal → String
  | x, [] => serCompact x
  | x, y :: ys => serCompact x ++ "," ++ serElemsCompact y ys
termination_by x xs => sizeOf x + sizeOf xs
decreasing_by all_goals simp_wf; all_goals try omega

/-- Comma separated minified object members. -/
def serFieldsCompact : (String × JVal) → List (String × JVal) → String
  | (k, v), [] => "\"" ++ k ++ "\":" ++ serCompact v
  | (k, v), f :: fs => "\"" ++ k ++ "\":" ++ serCompact v ++ "," ++ serFieldsCompact f fs
termination_by f fs => sizeOf f + sizeOf fs
decreasing_by all_goals simp_wf; all_goals try omega

end

/-- Model of `JSON.stringify(parsed)`. -/
def JSONstringifyCompact (v : JVal) : String :=
  serCompact v

/-! ## The Format Session state machine

One session per format.  `inputDoc` / `outputDoc` are the two CodeMirror
documents, `storeIn` / `storeOut` the two `localStorage` keys for this
format (`none` models an absent key), `status` the status bar, `debounce`
the pending debounce timer together with the `val` its callback captured,
and `focusInput` whether the input editor holds focus. -/

/-- The rendered status bar (`setStatus` with type `idle` / `ok` /
`error`). -/
inductive Status where
  | idle (msg : String)
  | ok (msg : String)
  | error (msg : String) (detail : String)
deriving Repr, DecidableEq

/-- The state of one Format Session. -/
structure Session where
  inputDoc : String
  outputDoc : String
  storeIn : Option String
  storeOut : Option String
  status : Status
  debounce : Option String
  focusInput : Bool
deriving Repr, DecidableEq

/-- Whether a CodeMirror dispatch
`{changes: {from: 0, to: doc.length, insert: text}}` has a non-empty change
set, which is exactly when the `updateListener`'s `update.docChanged` is
true and `onChange` runs: only replacing an empty document by the empty
string is a no-change dispatch. -/
def docChangedFires (oldDoc newText : String) : Bool :=
  !(oldDoc == "" && newText == "")

/-- The input pane `onChange` callback (lines 129-135 / 233-239): persist
the raw text, cancel any pending debounce timer and start a new one whose
callback captures `val`. -/
def inputChanged (s : Session) (val : String) : Session :=
  { s with storeIn := some val, debounce := some val }

/-- The output pane `onChange` callback (lines 137-139 / 241-243): persist
the raw output text.  Nothing else happens in this handler. -/
def outputChanged (s : Session) (val : String) : Session :=
  { s with storeOut := some val }

/-- `setEditorDoc(inputEditor, text)`: the programmatic write replaces the
whole document and, when the change set is non-empty, synchronously fires
the input pane's `onChange`. -/
def setInputDoc (s : Session) (text : String) : Session :=
  let s1 := { s with inputDoc := text }
  if docChangedFires s.inputDoc text then inputChanged s1 text else s1

/-- `setEditorDoc(outputEditor, text)`: as `setInputDoc`, for the output
pane. -/
def setOutputDoc (s : Session) (text : String) : Session :=
  let s1 := { s with outputDoc := text }
  if docChangedFires s.outputDoc text then outputChanged s1 text else s1

/-- A user-originated edit of the input pane to content `val`: the document
changes and the input `onChange` runs. -/
def userEditInput (s : Session) (val : String) : Session :=
  inputChanged { s with inputDoc := val } val

/-- A user-originated edit of the output pane to content `val`: the document
changes and the output `onChange` runs. -/
def userEditOutput (s : Session) (val : String) : Session :=
  outputChanged { s with outputDoc := val } val

/-- The idle status message of the JSON session. -/
def jsonIdleMsg : String := "Ready · Paste JSON and click Format"

/-- The idle status message of the YAML session. -/
def yamlIdleMsg : String := "Ready · Paste YAML and click Format"

/-- `processJSON(minify)` (lines 141-168): trim the input document; on empty
trimmed input clear the output pane, drop the persisted output and go idle;
otherwise `JSON.parse` it and either write the (pretty or minified)
serialization to the output pane, persist it and report `ok` with line/size
metadata, or clear the output pane, drop the persisted output and report
the parse error. -/
def processJSON (s : Session) (minify : Bool) : Session :=
  let raw := jsTrim s.inputDoc
  if raw = "" then
    let s1 := setOutputDoc s ""
    { s1 with storeOut := none, status := .idle jsonIdleMsg }
  else
    match JSONparse raw with
    | .ok parsed =>
      let formatted :=
        if minify then JSONstringifyCompact parsed else JSONstringifyPretty parsed
      let s1 := setOutputDoc s formatted
      { s1 with storeOut := some formatted,
                status := .ok (okStatusMsg "JSON" formatted) }
    | .error msg =>
      let s1 := setOutputDoc s ""
      { s1 with storeOut := none, status := .error "Invalid JSON" msg }

/-- The debounce timer firing (the `setTimeout` callback of lines 132-134 /
236-238): with `val` the captured text, run the processor only when
`val.trim()` is truthy.  `run` is the processor the session wires in
(`processJSON(false)` for JSON, `processYAML()` for YAML). -/
def debounceFire (run : Session → Session) (s : Session) : Session :=
  match s.debounce with
  | none => s
  | some val =>
    let s1 := { s with debounce := none }
    if jsTrim val = "" then s1 else run s1

/-- The Clear button handler (lines 173-180 / 285-292): blank both panes
(each write firing the corresponding `onChange`), remove both persisted
keys, reset the status and focus the input editor. -/
def clearAction (idleMsg : String) (s : Session) : Session :=
  let s1 := setInputDoc s ""
  let s2 := setOutputDoc s1 ""
  { s2 with storeIn := none, storeOut := none,
            status := .idle idleMsg, focusInput := true }

/-- The Paste button handler (lines 182-191 / 294-303) after a successful
clipboard read of `text`: write it to the input pane (firing that pane's
`onChange`), persist it, and run the processor immediately. -/
def pasteAction (run : Session → Session) (s : Session) (text : String) :
    Session :=
  let s1 := setInputDoc s text
  let s2 := { s1 with storeIn := some text }
  run s2

/-! ## The YAML engine interface and `processYAML` -/

/-- A `js-yaml` error position marker (`err.mark`), 0-based. -/
structure YamlMark where
  line : Nat
  column : Nat
deriving Repr, DecidableEq

/-- A `js-yaml` load error: a message and an optional position marker. -/
structure YamlError where
  message : String
  mark : Option YamlMark
deriving Repr, DecidableEq

/-- The external YAML engine (`js-yaml`): `loadAll` parses a raw text into
the list of documents of the stream or fails, `dump d` re-serializes one
document (with `indent: 2, lineWidth: -1, noRefs: true, sortKeys: false`). -/
structure YamlEngine (Doc : Type) where
  loadAll : String → Except YamlError (List Doc)
  dump : Doc → String

/-- The `detail` string of the YAML error branch (lines 277-278):
`` err.mark ? `Line ${err.mark.line + 1}, Col ${err.mark.column + 1}` : '' ``. -/
def yamlErrDetail (err : YamlError) : String :=
  match err.mark with
  | some m =>
    "Line " ++ toString (m.line + 1) ++ ", Col " ++ toString (m.column + 1)
  | none => ""

/-- The document re-dump of `processYAML` (lines 258-263): a single parsed
document is dumped plainly, two or more are dumped and joined with
`'---\n'`. -/
def yamlJoinDumps {Doc : Type} (E : YamlEngine Doc) (docs : List Doc) : String :=
  match docs with
  | [d] => E.dump d
  | _ => jsJoin "---\n" (docs.map E.dump)

/-- `processYAML()` (lines 245-281), over an engine `E`: trim the input; on
empty trimmed input clear and go idle; otherwise `loadAll` the raw text and
either re-dump the documents — a single document plainly, several joined
with `'---\n'` — trim trailing whitespace, write and persist the result and
report `ok` metadata, or clear the output and report
`` `Invalid YAML${detail ? ` · ${detail}` : ''}` `` with the engine's
message. -/
def processYAML {Doc : Type} (E : YamlEngine Doc) (s : Session) : Session :=
  let raw := jsTrim s.inputDoc
  if raw = "" then
    let s1 := setOutputDoc s ""
    { s1 with storeOut := none, status := .idle yamlIdleMsg }
  else
    match E.loadAll raw with
    | .ok docs =>
      let formatted := jsTrimEnd (yamlJoinDumps E docs)
      let s1 := setOutputDoc s formatted
      { s1 with storeOut := some formatted,
                status := .ok (okStatusMsg "YAML" formatted) }
    | .error err =>
      let s1 := setOutputDoc s ""
      let detail := yamlErrDetail err
      { s1 with storeOut := none,
                status := .error
                  ("Invalid YAML" ++ (if detail = "" then "" else " · " ++ detail))
                  err.message }

/-! ## Auxiliary predicates for the round-trip development -/

/-- No key of the object literal repeats. -/
def noDupKeys : List (String × JVal) → Bool
  | [] => true
  | (k, _) :: fs => !(fs.any (fun f => f.1 == k)) && noDupKeys fs

/-- A character a modelled JSON string may hold: not a quote, not a
backslash, not a control character. -/
def okCharB (c : Char) : Bool :=
  c != '"' && c != '\\' && decide (32 ≤ c.toNat)

/-- All characters of the string are plain. -/
def wfStrB (s : String) : Bool :=
  s.data.all okCharB

mutual

/-- The values the modelled engine can produce: plain strings everywhere
and no repeated object keys. -/
def wfB : JVal → Bool
  | .null => true
  | .bool _ => true
  | .num _ => true
  | .str s => wfStrB s
  | .arr xs => wfElemsB xs
  | .obj fs => wfFieldsB fs && noDupKeys fs
termination_by v => sizeOf v
decreasing_by all_goals simp_wf

/-- `wfB` on every element. -/
def wfElemsB : List JVal → Bool
  | [] => true
  | x :: xs => wfB x && wfElemsB xs
termination_by xs => sizeOf xs
decreasing_by all_goals simp_wf; all_goals try omega

/-- Plain keys and `wfB` values. -/
def wfFieldsB : List (String × JVal) → Bool
  | [] => true
  | (k, v) :: fs => wfStrB k && wfB v && wfFieldsB fs
termination_by fs => sizeOf fs
decreasing_by all_goals simp_wf; all_goals try omega

end

mutual

/-- An upper bound on the recursion units `parseValue` spends reading the
serialization of `v`. -/
def msize : JVal → Nat
  | .null => 1
  | .bool _ => 1
  | .num _ => 1
  | .str _ => 1
  | .arr xs => 1 + msizeElems xs
  | .obj fs => 1 + msizeFields fs
termination_by v => sizeOf v
decreasing_by all_goals simp_wf

/-- Units for an element list. -/
def msizeElems : List JVal → Nat
  | [] => 1
  | x :: xs => 1 + msize x + msizeElems xs
termination_by xs => sizeOf xs
decreasing_by all_goals simp_wf; all_goals try omega

/-- Units for a member list. -/
def msizeFields : List (String × JVal) → Nat
  | [] => 1
  | (_, v) :: fs => 1 + msize v + msizeFields fs
termination_by fs => sizeOf fs
decreasing_by all_goals simp_wf; all_goals try omega

end

/-- The next character of the remaining input, if any, is not a digit — the
separator discipline of the serializer around numbers. -/
def nextNotDigit : List Char → Bool
  | [] => true
  | c :: _ => !c.isDigit

/-- The disjointness of the keys to come from the keys already
accumulated. -/
def keysDisjoint (acc fs : List (String × JVal)) : Bool :=
  fs.all (fun f => !(acc.any (fun g => g.1 == f.1)))

/-- The shape of one `js-yaml` `dump` result: the document's lines joined
by newlines, with a single trailing newline. -/
def mkDump (body : List String) : String :=
  jsJoin "\n" body ++ "\n"

/-- The expected line list of a formatted multi-document stream: the lines
of each document, with exactly one `---` line between consecutive
documents, none leading and none trailing. -/
def multiDocLines : List (List String) → List String
  | [] => []
  | [b] => b
  | b :: bs => b ++ "---" :: multiDocLines bs

/-! # Theorems

First the lemma layers: character classes, the whitespace skipper, string
bodies, numerals, the serializer shapes, and the parse-of-serialization
induction; then the session-level lemmas; finally one theorem per claim. -/

/-! ## Character classes and `skipWs` -/

theorem jsonWs_iff {c : Char} :
    jsonWs c = true ↔ c = ' ' ∨ c = '\t' ∨ c = '\n' ∨ c = '\r' := by
  simp [jsonWs, or_assoc]

theorem isDigit_not_ws {c : Char} (h : c.isDigit = true) : jsonWs c = false := by
  rcases hb : jsonWs c
  · rfl
  · rcases jsonWs_iff.mp hb with rfl | rfl | rfl | rfl <;> exact absurd h (by decide)

theorem isDigit_ne {c x : Char} (h : c.isDigit = true) (hx : x.isDigit = false) :
    c ≠ x := by
  rintro rfl
  rw [h] at hx
  cases hx

theorem skipWs_cons_ws {c : Char} (h : jsonWs c = true) (l : List Char) :
    skipWs (c :: l) = skipWs l := by
  simp [skipWs, h]

theorem skipWs_cons_not_ws {c : Char} (h : jsonWs c = false) (l : List Char) :
    skipWs (c :: l) = c :: l := by
  simp [skipWs, h]

theorem skipWs_append_ws {w : List Char} (h : ∀ c ∈ w, jsonWs c = true)
    (l : List Char) : skipWs (w ++ l) = skipWs l := by
  induction w with
  | nil => rfl
  | cons c w ih =>
    rw [List.cons_append, skipWs_cons_ws (h c (by simp)),
      ih (fun c hc => h c (by simp [hc]))]

theorem indData_ws {d : Nat} : ∀ c ∈ indData d, jsonWs c = true := by
  intro c hc
  rw [List.eq_of_mem_replicate hc]
  decide

theorem nextNotDigit_ws_append {w rest : List Char}
    (hw : ∀ c ∈ w, jsonWs c = true) {c0 : Char} (h0 : c0.isDigit = false) :
    nextNotDigit (w ++ c0 :: rest) = true := by
  cases w with
  | nil => simp [nextNotDigit, h0]
  | cons c w =>
    have hws : jsonWs c = true := hw c (by simp)
    have hcd : c.isDigit = false := by
      rcases hd : c.isDigit
      · rfl
      · rw [isDigit_not_ws hd] at hws
        cases hws
    simp [nextNotDigit, hcd]

/-! ## String bodies -/

theorem okCharB_spec {c : Char} (h : okCharB c = true) :
    ¬c = '"' ∧ ¬(c = '\\' ∨ c.toNat < 32) := by
  simp only [okCharB, Bool.and_eq_true, bne_iff_ne, ne_eq, decide_eq_true_eq] at h
  refine ⟨h.1.1, ?_⟩
  rintro (rfl | hlt)
  · exact h.1.2 rfl
  · omega

theorem parseStringBody_ok {l : List Char} (h : ∀ c ∈ l, okCharB c = true)
    (r : List Char) : parseStringBody (l ++ '"' :: r) = some (l, r) := by
  induction l with
  | nil => rfl
  | cons c cs ih =>
    obtain ⟨h1, h2⟩ := okCharB_spec (h c (by simp))
    rw [List.cons_append, parseStringBody, if_neg h1, if_neg h2,
      ih (fun x hx => h x (by simp [hx]))]

theorem parseStringBody_wf :
    ∀ l cs r, parseStringBody l = some (cs, r) → ∀ c ∈ cs, okCharB c = true := by
  intro l
  induction l with
  | nil => intro cs r h; simp [parseStringBody] at h
  | cons c rest ih =>
    intro cs r h
    rw [parseStringBody] at h
    split at h
    · rename_i hq
      cases h
      simp
    · split at h
      · cases h
      · rename_i hq hcc
        cases hb : parseStringBody rest with
        | none => rw [hb] at h; cases h
        | some p =>
          obtain ⟨cs1, r1⟩ := p
          rw [hb] at h
          simp only [Option.some.injEq, Prod.mk.injEq] at h
          obtain ⟨hcs, hr⟩ := h
          subst hcs
          subst hr
          intro x hx
          rcases List.mem_cons.mp hx with rfl | hx1
          · simp only [okCharB, Bool.and_eq_true, bne_iff_ne, ne_eq,
              decide_eq_true_eq]
            push_neg at hcc
            exact ⟨⟨hq, hcc.1⟩, by omega⟩
          · exact ih cs1 r1 hb x hx1

/-! ## Numerals -/

theorem digitChar_toNat {m : Nat} (h : m < 10) :
    (Char.ofNat (48 + m)).toNat = 48 + m := by
  interval_cases m <;> rfl

theorem digitChar_isDigit {m : Nat} (h : m < 10) :
    (Char.ofNat (48 + m)).isDigit = true := by
  interval_cases m <;> rfl

theorem natToDigits_ne_nil (n : Nat) : natToDigits n ≠ [] := by
  rw [natToDigits]
  split
  · simp
  · simp

theorem natToDigits_digits (n : Nat) : ∀ c ∈ natToDigits n, c.isDigit = true := by
  induction n using Nat.strong_induction_on with
  | _ n ih =>
    rw [natToDigits]
    split
    · rename_i h
      intro c hc
      rw [List.mem_singleton.mp hc]
      exact digitChar_isDigit h
    · rename_i h
      intro c hc
      rcases List.mem_append.mp hc with h1 | h2
      · exact ih (n / 10) (Nat.div_lt_self (by omega) (by omega)) c h1
      · rw [List.mem_singleton.mp h2]
        exact digitChar_isDigit (Nat.mod_lt n (by omega))

theorem digitsToNat_append_digit (l : List Char) (c : Char) :
    digitsToNat (l ++ [c]) = 10 * digitsToNat l + (c.toNat - 48) := by
  simp [digitsToNat, List.foldl_append]
  omega

theorem digitsToNat_natToDigits (n : Nat) : digitsToNat (natToDigits n) = n := by
  induction n using Nat.strong_induction_on with
  | _ n ih =>
    rw [natToDigits]
    split
    · rename_i h
      simp [digitsToNat, digitChar_toNat h]
    · rename_i h
      rw [digitsToNat_append_digit,
        ih (n / 10) (Nat.div_lt_self (by omega) (by omega)),
        digitChar_toNat (Nat.mod_lt n (by omega))]
      omega

theorem natToDigits_head_ne_zero {n : Nat} (h : 1 ≤ n) :
    (natToDigits n).head? ≠ some '0' := by
  induction n using Nat.strong_induction_on with
  | _ n ih =>
    rw [natToDigits]
    split
    · rename_i h10
      simp only [List.head?_cons, ne_eq, Option.some.injEq]
      intro he
      have hv : (Char.ofNat (48 + n)).toNat = '0'.toNat := by rw [he]
      rw [digitChar_toNat h10] at hv
      have h48 : '0'.toNat = 48 := rfl
      omega
    · rename_i h10
      rw [List.head?_append]
      have hne := natToDigits_ne_nil (n / 10)
      have hsome : ∃ c cs, natToDigits (n / 10) = c :: cs := by
        cases hd : natToDigits (n / 10) with
        | nil => exact absurd hd hne
        | cons c cs => exact ⟨c, cs, rfl⟩
      obtain ⟨c, cs, hd⟩ := hsome
      rw [hd]
      have := ih (n / 10) (Nat.div_lt_self (by omega) (by omega)) (by omega)
      rw [hd] at this
      simpa using this

theorem takeDigits_append {ds : List Char} (h : ∀ c ∈ ds, c.isDigit = true)
    {rest : List Char} (hr : nextNotDigit rest = true) :
    takeDigits (ds ++ rest) = (ds, rest) := by
  induction ds with
  | nil =>
    cases rest with
    | nil => rfl
    | cons c r =>
      have : c.isDigit = false := by simpa [nextNotDigit] using hr
      simp [takeDigits, this]
  | cons c cs ih =>
    rw [List.cons_append, takeDigits]
    simp [h c (by simp), ih (fun x hx => h x (by simp [hx]))]

theorem parseNumberCore_natToDigits (neg : Bool) (n : Nat) {rest : List Char}
    (hr : nextNotDigit rest = true) :
    parseNumberCore neg (natToDigits n ++ rest) =
      some (if neg then -(n : Int) else (n : Int), rest) := by
  simp only [parseNumberCore, takeDigits_append (natToDigits_digits n) hr]
  rw [if_neg (natToDigits_ne_nil n)]
  rw [if_neg ?_, digitsToNat_natToDigits]
  by_cases hz : n = 0
  · subst hz
    have h0 : natToDigits 0 = ['0'] := by rw [natToDigits]; rfl
    rw [h0]
    simp
  · intro hcon
    exact natToDigits_head_ne_zero (by omega) hcon.1

theorem parseNumber_intChars (i : Int) {rest : List Char}
    (hr : nextNotDigit rest = true) :
    parseNumber (intChars i ++ rest) = some (i, rest) := by
  rw [intChars]
  by_cases hi : i < 0
  · rw [if_pos hi, List.cons_append, parseNumber, if_pos (by trivial),
      parseNumberCore_natToDigits true i.natAbs hr]
    have : -((i.natAbs : Nat) : Int) = i := by omega
    rw [if_pos (by trivial), this]
  · rw [if_neg hi]
    obtain ⟨c, cs, hd⟩ : ∃ c cs, natToDigits i.toNat = c :: cs := by
      cases hx : natToDigits i.toNat with
      | nil => exact absurd hx (natToDigits_ne_nil _)
      | cons c cs => exact ⟨c, cs, rfl⟩
    have hcd : c.isDigit = true := natToDigits_digits i.toNat c (by rw [hd]; simp)
    have hne : c ≠ '-' := isDigit_ne hcd (by decide)
    rw [hd, List.cons_append, parseNumber, if_neg hne, ← List.cons_append, ← hd,
      parseNumberCore_natToDigits false i.toNat hr]
    have : ((i.toNat : Nat) : Int) = i := by omega
    rw [if_neg (by simp), this]

/-! ## Serializer shapes -/

theorem intChars_head (i : Int) :
    ∃ c cs, intChars i = c :: cs ∧ (c = '-' ∨ c.isDigit = true) := by
  rw [intChars]
  by_cases hi : i < 0
  · exact ⟨'-', natToDigits i.natAbs, by rw [if_pos hi], Or.inl rfl⟩
  · rw [if_neg hi]
    obtain ⟨c, cs, hd⟩ : ∃ c cs, natToDigits i.toNat = c :: cs := by
      cases hx : natToDigits i.toNat with
      | nil => exact absurd hx (natToDigits_ne_nil _)
      | cons c cs => exact ⟨c, cs, rfl⟩
    exact ⟨c, cs, hd, Or.inr (natToDigits_digits _ c (by rw [hd]; simp))⟩

theorem serPrettyData_head (d : Nat) (v : JVal) :
    ∃ c cs, serPrettyData d v = c :: cs ∧ jsonWs c = false ∧ c ≠ ']' := by
  cases v with
  | null => exact ⟨'n', _, by rw [serPrettyData], by decide, by decide⟩
  | bool b =>
    cases b
    · exact ⟨'f', _, by rw [serPrettyData], by decide, by decide⟩
    · exact ⟨'t', _, by rw [serPrettyData], by decide, by decide⟩
  | num i =>
    obtain ⟨c, cs, hd, hc⟩ := intChars_head i
    refine ⟨c, cs, by rw [serPrettyData, hd], ?_, ?_⟩
    · rcases hc with rfl | hdig
      · decide
      · exact isDigit_not_ws hdig
    · rcases hc with rfl | hdig
      · decide
      · exact isDigit_ne hdig (by decide)
  | str s => exact ⟨'"', _, by rw [serPrettyData], by decide, by decide⟩
  | arr xs =>
    cases xs with
    | nil => exact ⟨'[', _, by rw [serPrettyData], by decide, by decide⟩
    | cons x xs => exact ⟨'[', _, by rw [serPrettyData], by decide, by decide⟩
  | obj fs =>
    cases fs with
    | nil => exact ⟨'{', _, by rw [serPrettyData], by decide, by decide⟩
    | cons f fs => exact ⟨'{', _, by rw [serPrettyData], by decide, by decide⟩

mutual

theorem msize_le_len (d : Nat) (v : JVal) :
    msize v ≤ (serPrettyData d v).length + 1 := by
  cases v with
  | null => rw [msize, serPrettyData]; omega
  | bool b => cases b <;> (rw [msize, serPrettyData]; simp)
  | num i => rw [msize]; exact Nat.le_add_left 1 _
  | str s => rw [msize]; exact Nat.le_add_left 1 _
  | arr xs =>
    cases xs with
    | nil => rw [msize, msizeElems, serPrettyData]; decide
    | cons x xs =>
      have h := msizeElems_le_len (d + 1) x xs
      rw [msize, serPrettyData]
      simp only [List.length_cons, List.length_append]
      omega
  | obj fs =>
    cases fs with
    | nil => rw [msize, msizeFields, serPrettyData]; decide
    | cons f fs =>
      have h := msizeFields_le_len (d + 1) f fs
      rw [msize, serPrettyData]
      simp only [List.length_cons, List.length_append]
      omega
termination_by sizeOf v
decreasing_by all_goals simp_wf; all_goals omega

theorem msizeElems_le_len (d : Nat) (x : JVal) (xs : List JVal) :
    msizeElems (x :: xs) ≤ (serElemsData d x xs).length + 3 := by
  cases xs with
  | nil =>
    have h := msize_le_len d x
    rw [msizeElems, msizeElems, serElemsData]
    simp only [List.length_append]
    omega
  | cons y ys =>
    have h1 := msize_le_len d x
    have h2 := msizeElems_le_len d y ys
    rw [msizeElems, serElemsData]
    simp only [List.length_append, List.length_cons]
    omega
termination_by sizeOf x + sizeOf xs
decreasing_by all_goals simp_wf; all_goals omega

theorem msizeFields_le_len (d : Nat) (f : String × JVal) (fs : List (String × JVal)) :
    msizeFields (f :: fs) ≤ (serFieldsData d f fs).length + 3 := by
  obtain ⟨k, v⟩ := f
  cases fs with
  | nil =>
    have h := msize_le_len d v
    rw [msizeFields, msizeFields, serFieldsData]
    simp only [List.length_append, List.length_cons]
    omega
  | cons f1 fs1 =>
    have h1 := msize_le_len d v
    have h2 := msizeFields_le_len d f1 fs1
    rw [msizeFields, serFieldsData]
    simp only [List.length_append, List.length_cons]
    omega
termination_by sizeOf f + sizeOf fs
decreasing_by all_goals simp_wf; all_goals omega

end

/-! ## Object accumulation -/

theorem String_eta (s : String) : (⟨s.data⟩ : String) = s := rfl

theorem any_key_eq_false {l : List (String × JVal)} {k : String} :
    l.any (fun g => g.1 == k) = false ↔ ∀ g ∈ l, g.1 ≠ k := by
  induction l with
  | nil => simp
  | cons g gs ih =>
    rw [List.any_cons, Bool.or_eq_false_iff, ih]
    constructor
    · rintro ⟨h1, h2⟩ x hx
      rcases List.mem_cons.mp hx with rfl | hx1
      · exact beq_eq_false_iff_ne.mp h1
      · exact h2 x hx1
    · intro h
      exact ⟨beq_eq_false_iff_ne.mpr (h g (by simp)),
        fun x hx => h x (by simp [hx])⟩

theorem objInsert_append {acc : List (String × JVal)} {k : String} {v : JVal}
    (h : acc.any (fun g => g.1 == k) = false) :
    objInsert acc k v = acc ++ [(k, v)] := by
  induction acc with
  | nil => rfl
  | cons g gs ih =>
    obtain ⟨k1, v1⟩ := g
    rw [List.any_cons, Bool.or_eq_false_iff] at h
    rw [objInsert, if_neg (by simpa using h.1), ih h.2, List.cons_append]

theorem keysDisjoint_cons {acc : List (String × JVal)} {f : String × JVal}
    {fs : List (String × JVal)} :
    keysDisjoint acc (f :: fs) = true ↔
      acc.any (fun g => g.1 == f.1) = false ∧ keysDisjoint acc fs = true := by
  rw [keysDisjoint, List.all_cons, Bool.and_eq_true, Bool.not_eq_true']
  rw [keysDisjoint]

theorem noDupKeys_cons {k : String} {v : JVal} {fs : List (String × JVal)} :
    noDupKeys ((k, v) :: fs) = true ↔
      fs.any (fun f => f.1 == k) = false ∧ noDupKeys fs = true := by
  rw [noDupKeys, Bool.and_eq_true, Bool.not_eq_true']

theorem keysDisjoint_append_single {acc fs : List (String × JVal)} {k : String}
    {v : JVal} (h1 : keysDisjoint acc fs = true)
    (h2 : fs.any (fun f => f.1 == k) = false) :
    keysDisjoint (acc ++ [(k, v)]) fs = true := by
  rw [keysDisjoint, List.all_eq_true] at h1 ⊢
  rw [any_key_eq_false] at h2
  intro f hf
  have ha := h1 f hf
  rw [Bool.not_eq_true'] at ha ⊢
  rw [List.any_append, Bool.or_eq_false_iff]
  refine ⟨ha, ?_⟩
  simp only [List.any_cons, List.any_nil, Bool.or_false]
  rw [beq_eq_false_iff_ne]
  exact fun he => h2 f hf he.symm

/-! ## The parse-of-serialization induction -/

theorem msize_pos (v : JVal) : 1 ≤ msize v := by
  cases v <;> rw [msize] <;> omega

theorem msizeElems_pos (xs : List JVal) : 1 ≤ msizeElems xs := by
  cases xs <;> rw [msizeElems] <;> omega

theorem msizeFields_pos (fs : List (String × JVal)) : 1 ≤ msizeFields fs := by
  cases fs with
  | nil => rw [msizeFields]
  | cons f fs =>
    obtain ⟨k, v⟩ := f
    rw [msizeFields]
    omega

theorem wfElemsB_cons {x : JVal} {xs : List JVal} :
    wfElemsB (x :: xs) = true ↔ wfB x = true ∧ wfElemsB xs = true := by
  rw [wfElemsB, Bool.and_eq_true]

theorem wfFieldsB_cons {k : String} {v : JVal} {fs : List (String × JVal)} :
    wfFieldsB ((k, v) :: fs) = true ↔
      wfStrB k = true ∧ wfB v = true ∧ wfFieldsB fs = true := by
  rw [wfFieldsB, Bool.and_eq_true, Bool.and_eq_true, and_assoc]

theorem wfStrB_chars {s : String} (h : wfStrB s = true) :
    ∀ c ∈ s.data, okCharB c = true := by
  rw [wfStrB, List.all_eq_true] at h
  exact h

theorem serElemsData_decomp (d : Nat) (x : JVal) (xs : List JVal) :
    ∃ R, serElemsData d x xs = indData d ++ (serPrettyData d x ++ R) := by
  cases xs with
  | nil => exact ⟨[], by rw [serElemsData]; simp⟩
  | cons y ys => exact ⟨',' :: '\n' :: serElemsData d y ys, by rw [serElemsData]⟩

theorem serFieldsData_decomp (d : Nat) (k : String) (v : JVal)
    (fs : List (String × JVal)) :
    ∃ M, serFieldsData d (k, v) fs =
      indData d ++ ('"' :: (k.data ++ '"' :: ':' :: ' ' :: M)) := by
  cases fs with
  | nil => exact ⟨serPrettyData d v, by rw [serFieldsData]⟩
  | cons f fs =>
    exact ⟨serPrettyData d v ++ ',' :: '\n' :: serFieldsData d f fs,
      by rw [serFieldsData]⟩

theorem parse_of_ser : ∀ fuel : Nat,
    (∀ d v w rest, (∀ c ∈ w, jsonWs c = true) → wfB v = true →
      msize v ≤ fuel → nextNotDigit rest = true →
      parseValue fuel (w ++ (serPrettyData d v ++ rest)) = .ok (v, rest)) ∧
    (∀ d x xs w1 w2 rest, (∀ c ∈ w1, jsonWs c = true) →
      (∀ c ∈ w2, jsonWs c = true) → wfB x = true → wfElemsB xs = true →
      msizeElems (x :: xs) ≤ fuel →
      parseElems fuel (w1 ++ (serElemsData d x xs ++ (w2 ++ ']' :: rest)))
        = .ok (x :: xs, rest)) ∧
    (∀ d k v fs acc w1 w2 rest, (∀ c ∈ w1, jsonWs c = true) →
      (∀ c ∈ w2, jsonWs c = true) → wfStrB k = true → wfB v = true →
      wfFieldsB fs = true → noDupKeys ((k, v) :: fs) = true →
      keysDisjoint acc ((k, v) :: fs) = true →
      msizeFields ((k, v) :: fs) ≤ fuel →
      parseFields fuel acc
          (w1 ++ (serFieldsData d (k, v) fs ++ (w2 ++ '}' :: rest)))
        = .ok (acc ++ (k, v) :: fs, rest)) := by
  intro fuel
  induction fuel with
  | zero =>
    refine ⟨?_, ?_, ?_⟩
    · intro d v w rest _ _ hsz _
      have := msize_pos v
      omega
    · intro d x xs w1 w2 rest _ _ _ _ hsz
      have := msizeElems_pos (x :: xs)
      omega
    · intro d k v fs acc w1 w2 rest _ _ _ _ _ _ _ hsz
      have := msizeFields_pos ((k, v) :: fs)
      omega
  | succ fuel ih =>
    obtain ⟨ihv, ihe, ihf⟩ := ih
    refine ⟨?_, ?_, ?_⟩
    · -- parseValue on a serialized value
      intro d v w rest hw hwf hsz hnd
      cases v with
      | null =>
        have hskip : skipWs (w ++ (serPrettyData d .null ++ rest)) =
            'n' :: 'u' :: 'l' :: 'l' :: rest := by
          rw [serPrettyData, skipWs_append_ws hw]
          show skipWs ('n' :: 'u' :: 'l' :: 'l' :: rest) = _
          rw [skipWs_cons_not_ws (by decide)]
        rw [parseValue]
        simp only [hskip]
        simp
      | bool b =>
        cases b with
        | true =>
          have hskip : skipWs (w ++ (serPrettyData d (.bool true) ++ rest)) =
              't' :: 'r' :: 'u' :: 'e' :: rest := by
            rw [serPrettyData, skipWs_append_ws hw]
            show skipWs ('t' :: 'r' :: 'u' :: 'e' :: rest) = _
            rw [skipWs_cons_not_ws (by decide)]
          rw [parseValue]
          simp only [hskip]
          simp
        | false =>
          have hskip : skipWs (w ++ (serPrettyData d (.bool false) ++ rest)) =
              'f' :: 'a' :: 'l' :: 's' :: 'e' :: rest := by
            rw [serPrettyData, skipWs_append_ws hw]
            show skipWs ('f' :: 'a' :: 'l' :: 's' :: 'e' :: rest) = _
            rw [skipWs_cons_not_ws (by decide)]
          rw [parseValue]
          simp only [hskip]
          simp
      | num i =>
        obtain ⟨c, cs, hic, hcase⟩ := intChars_head i
        have hcws : jsonWs c = false := by
          rcases hcase with rfl | hdig
          · decide
          · exact isDigit_not_ws hdig
        have hskip : skipWs (w ++ (serPrettyData d (.num i) ++ rest)) =
            c :: (cs ++ rest) := by
          rw [serPrettyData, hic, skipWs_append_ws hw]
          show skipWs (c :: (cs ++ rest)) = _
          rw [skipWs_cons_not_ws hcws]
        have hne : ∀ x : Char, x.isDigit = false → x ≠ '-' → c ≠ x := by
          intro x hx hxm
          rcases hcase with rfl | hdig
          · exact fun he => hxm he.symm
          · exact isDigit_ne hdig hx
        rw [parseValue]
        simp only [hskip]
        rw [if_neg (hne 'n' (by decide) (by decide)),
          if_neg (hne 't' (by decide) (by decide)),
          if_neg (hne 'f' (by decide) (by decide)),
          if_neg (hne '"' (by decide) (by decide)),
          if_neg (hne '[' (by decide) (by decide)),
          if_neg (hne '{' (by decide) (by decide))]
        have hin : c :: (cs ++ rest) = intChars i ++ rest := by
          rw [hic]
          rfl
        rw [hin, parseNumber_intChars i hnd]
      | str s =>
        have hchars : ∀ c ∈ s.data, okCharB c = true := by
          rw [wfB] at hwf
          exact wfStrB_chars hwf
        have hskip : skipWs (w ++ (serPrettyData d (.str s) ++ rest)) =
            '"' :: (s.data ++ '"' :: rest) := by
          rw [serPrettyData, skipWs_append_ws hw]
          show skipWs ('"' :: ((s.data ++ ['"']) ++ rest)) = _
          rw [skipWs_cons_not_ws (by decide)]
          simp
        rw [parseValue]
        simp only [hskip]
        rw [if_neg (by decide), if_neg (by decide), if_neg (by decide),
          if_pos (by trivial), parseStringBody_ok hchars rest]
      | arr xs =>
        cases xs with
        | nil =>
          have hskip : skipWs (w ++ (serPrettyData d (.arr []) ++ rest)) =
              '[' :: ']' :: rest := by
            rw [serPrettyData, skipWs_append_ws hw]
            show skipWs ('[' :: ']' :: rest) = _
            rw [skipWs_cons_not_ws (by decide)]
          rw [parseValue]
          simp only [hskip]
          rw [if_neg (by decide), if_neg (by decide), if_neg (by decide),
            if_neg (by decide), if_pos (by trivial), skipWs_cons_not_ws (by decide)]
          simp
        | cons x xs =>
          rw [wfB, wfElemsB_cons] at hwf
          rw [msize] at hsz
          obtain ⟨c0, cs0, hc0, hc0ws, hc0ne⟩ := serPrettyData_head (d + 1) x
          obtain ⟨R, hR⟩ := serElemsData_decomp (d + 1) x xs
          have hskip : skipWs (w ++ (serPrettyData d (.arr (x :: xs)) ++ rest)) =
              '[' :: ('\n' :: ((serElemsData (d + 1) x xs ++
                '\n' :: (indData d ++ [']'])) ++ rest)) := by
            rw [serPrettyData, skipWs_append_ws hw]
            show skipWs ('[' :: ('\n' :: ((serElemsData (d + 1) x xs ++
              '\n' :: (indData d ++ [']'])) ++ rest))) = _
            rw [skipWs_cons_not_ws (by decide)]
          have hskip2 : skipWs ('\n' :: ((serElemsData (d + 1) x xs ++
              '\n' :: (indData d ++ [']'])) ++ rest)) =
              c0 :: (cs0 ++ (R ++ ('\n' :: (indData d ++ [']'])) ++ rest)) := by
            rw [skipWs_cons_ws (by decide), hR]
            rw [show (indData (d + 1) ++ (serPrettyData (d + 1) x ++ R) ++
              '\n' :: (indData d ++ [']'])) ++ rest =
              indData (d + 1) ++ (serPrettyData (d + 1) x ++
                (R ++ ('\n' :: (indData d ++ [']'])) ++ rest)) by simp]
            rw [skipWs_append_ws indData_ws, hc0]
            show skipWs (c0 :: (cs0 ++ _)) = _
            rw [skipWs_cons_not_ws hc0ws]
          rw [parseValue]
          simp only [hskip]
          rw [if_neg (by decide), if_neg (by decide), if_neg (by decide),
            if_neg (by decide), if_pos (by trivial)]
          simp only [hskip2]
          rw [if_neg hc0ne]
          have harg : '\n' :: ((serElemsData (d + 1) x xs ++
              '\n' :: (indData d ++ [']'])) ++ rest) =
              ['\n'] ++ (serElemsData (d + 1) x xs ++
                (('\n' :: indData d) ++ ']' :: rest)) := by
            simp
          rw [harg, ihe (d + 1) x xs ['\n'] ('\n' :: indData d) rest
            (by intro c hc; rw [List.mem_singleton.mp hc]; decide)
            (by
              intro c hc
              rcases List.mem_cons.mp hc with rfl | hc1
              · decide
              · exact indData_ws c hc1)
            hwf.1 hwf.2 (by omega)]
      | obj fs =>
        cases fs with
        | nil =>
          have hskip : skipWs (w ++ (serPrettyData d (.obj []) ++ rest)) =
              '{' :: '}' :: rest := by
            rw [serPrettyData, skipWs_append_ws hw]
            show skipWs ('{' :: '}' :: rest) = _
            rw [skipWs_cons_not_ws (by decide)]
          rw [parseValue]
          simp only [hskip]
          rw [if_neg (by decide), if_neg (by decide), if_neg (by decide),
            if_neg (by decide), if_neg (by decide), if_pos (by trivial),
            skipWs_cons_not_ws (by decide)]
          simp
        | cons f fs =>
          obtain ⟨k, v⟩ := f
          rw [wfB, Bool.and_eq_true, wfFieldsB_cons] at hwf
          rw [msize] at hsz
          obtain ⟨M, hM⟩ := serFieldsData_decomp (d + 1) k v fs
          have hskip : skipWs (w ++ (serPrettyData d (.obj ((k, v) :: fs)) ++ rest)) =
              '{' :: ('\n' :: ((serFieldsData (d + 1) (k, v) fs ++
                '\n' :: (indData d ++ ['}'])) ++ rest)) := by
            rw [serPrettyData, skipWs_append_ws hw]
            show skipWs ('{' :: ('\n' :: ((serFieldsData (d + 1) (k, v) fs ++
              '\n' :: (indData d ++ ['}'])) ++ rest))) = _
            rw [skipWs_cons_not_ws (by decide)]
          have hskip2 : skipWs ('\n' :: ((serFieldsData (d + 1) (k, v) fs ++
              '\n' :: (indData d ++ ['}'])) ++ rest)) =
              '"' :: ((k.data ++ '"' :: ':' :: ' ' :: M) ++
                (('\n' :: (indData d ++ ['}'])) ++ rest)) := by
            rw [skipWs_cons_ws (by decide), hM]
            rw [show (indData (d + 1) ++ ('"' :: (k.data ++ '"' :: ':' :: ' ' :: M)) ++
              '\n' :: (indData d ++ ['}'])) ++ rest =
              indData (d + 1) ++ ('"' :: ((k.data ++ '"' :: ':' :: ' ' :: M) ++
                (('\n' :: (indData d ++ ['}'])) ++ rest))) by simp]
            rw [skipWs_append_ws indData_ws]
            rw [skipWs_cons_not_ws (by decide)]
          rw [parseValue]
          simp only [hskip]
          rw [if_neg (by decide), if_neg (by decide), if_neg (by decide),
            if_neg (by decide), if_neg (by decide), if_pos (by trivial)]
          simp only [hskip2]
          rw [if_neg (by decide)]
          have harg : '\n' :: ((serFieldsData (d + 1) (k, v) fs ++
              '\n' :: (indData d ++ ['}'])) ++ rest) =
              ['\n'] ++ (serFieldsData (d + 1) (k, v) fs ++
                (('\n' :: indData d) ++ '}' :: rest)) := by
            simp
          rw [harg, ihf (d + 1) k v fs [] ['\n'] ('\n' :: indData d) rest
            (by intro c hc; rw [List.mem_singleton.mp hc]; decide)
            (by
              intro c hc
              rcases List.mem_cons.mp hc with rfl | hc1
              · decide
              · exact indData_ws c hc1)
            hwf.1.1 hwf.1.2.1 hwf.1.2.2
            hwf.2
            (by rw [keysDisjoint]; simp)
            (by omega)]
          simp
    · -- parseElems on serialized elements
      intro d x xs w1 w2 rest hw1 hw2 hwx hwxs hsz
      have hww : ∀ c ∈ w1 ++ indData d, jsonWs c = true := by
        intro c hc
        rcases List.mem_append.mp hc with h1 | h2
        · exact hw1 c h1
        · exact indData_ws c h2
      have hndY : nextNotDigit (w2 ++ ']' :: rest) = true :=
        nextNotDigit_ws_append hw2 (by decide)
      cases xs with
      | nil =>
        rw [msizeElems, msizeElems] at hsz
        rw [parseElems]
        have hI : w1 ++ (serElemsData d x [] ++ (w2 ++ ']' :: rest)) =
            (w1 ++ indData d) ++ (serPrettyData d x ++ (w2 ++ ']' :: rest)) := by
          rw [serElemsData]
          simp
        rw [hI, ihv d x (w1 ++ indData d) (w2 ++ ']' :: rest) hww hwx
          (by omega) hndY]
        simp only [skipWs_append_ws hw2, skipWs_cons_not_ws
          (show jsonWs ']' = false by decide)]
        rw [if_neg (by decide), if_pos (by trivial)]
      | cons y ys =>
        rw [msizeElems] at hsz
        rw [parseElems]
        have hI : w1 ++ (serElemsData d x (y :: ys) ++ (w2 ++ ']' :: rest)) =
            (w1 ++ indData d) ++ (serPrettyData d x ++
              (',' :: '\n' :: (serElemsData d y ys ++ (w2 ++ ']' :: rest)))) := by
          rw [serElemsData]
          simp
        rw [hI, ihv d x (w1 ++ indData d) _ hww hwx (by omega) (by rfl)]
        simp only [skipWs_cons_not_ws (show jsonWs ',' = false by decide)]
        rw [if_pos (by trivial)]
        have harg : '\n' :: (serElemsData d y ys ++ (w2 ++ ']' :: rest)) =
            ['\n'] ++ (serElemsData d y ys ++ (w2 ++ ']' :: rest)) := rfl
        rw [harg, ihe d y ys ['\n'] w2 rest
          (by intro c hc; rw [List.mem_singleton.mp hc]; decide) hw2
          (wfElemsB_cons.mp hwxs).1 (wfElemsB_cons.mp hwxs).2 (by omega)]
    · -- parseFields on serialized members
      intro d k v fs acc w1 w2 rest hw1 hw2 hwk hwv hwfs hnd hdisj hsz
      have hww : ∀ c ∈ w1 ++ indData d, jsonWs c = true := by
        intro c hc
        rcases List.mem_append.mp hc with h1 | h2
        · exact hw1 c h1
        · exact indData_ws c h2
      have hkey : ∀ c ∈ k.data, okCharB c = true := wfStrB_chars hwk
      obtain ⟨hacc, hdisj2⟩ := keysDisjoint_cons.mp hdisj
      obtain ⟨hfsk, hnd2⟩ := noDupKeys_cons.mp hnd
      cases fs with
      | nil =>
        rw [msizeFields, msizeFields] at hsz
        rw [parseFields]
        have hI : w1 ++ (serFieldsData d (k, v) [] ++ (w2 ++ '}' :: rest)) =
            (w1 ++ indData d) ++ ('"' :: (k.data ++ '"' :: ':' :: ' ' ::
              (serPrettyData d v ++ (w2 ++ '}' :: rest)))) := by
          rw [serFieldsData]
          simp
        rw [hI]
        simp only [skipWs_append_ws hww, skipWs_cons_not_ws
          (show jsonWs '"' = false by decide)]
        rw [if_pos (by trivial)]
        simp only [parseStringBody_ok hkey]
        simp only [skipWs_cons_not_ws (show jsonWs ':' = false by decide)]
        rw [if_pos (by trivial)]
        have hv := ihv d v [' '] (w2 ++ '}' :: rest)
          (by intro c hc; rw [List.mem_singleton.mp hc]; decide) hwv
          (by omega) (nextNotDigit_ws_append hw2 (by decide))
        rw [List.singleton_append] at hv
        simp only [hv, String_eta, objInsert_append hacc]
        simp only [skipWs_append_ws hw2, skipWs_cons_not_ws
          (show jsonWs '}' = false by decide)]
        rw [if_neg (by decide), if_pos (by trivial)]
      | cons f1 fs1 =>
        obtain ⟨k1, v1⟩ := f1
        rw [msizeFields] at hsz
        rw [parseFields]
        have hI : w1 ++ (serFieldsData d (k, v) ((k1, v1) :: fs1) ++
            (w2 ++ '}' :: rest)) =
            (w1 ++ indData d) ++ ('"' :: (k.data ++ '"' :: ':' :: ' ' ::
              (serPrettyData d v ++ (',' :: '\n' ::
                (serFieldsData d (k1, v1) fs1 ++ (w2 ++ '}' :: rest)))))) := by
          rw [serFieldsData]
          simp
        rw [hI]
        simp only [skipWs_append_ws hww, skipWs_cons_not_ws
          (show jsonWs '"' = false by decide)]
        rw [if_pos (by trivial)]
        simp only [parseStringBody_ok hkey]
        simp only [skipWs_cons_not_ws (show jsonWs ':' = false by decide)]
        rw [if_pos (by trivial)]
        have hv := ihv d v [' ']
          (',' :: '\n' :: (serFieldsData d (k1, v1) fs1 ++ (w2 ++ '}' :: rest)))
          (by intro c hc; rw [List.mem_singleton.mp hc]; decide) hwv
          (by omega) (by rfl)
        rw [List.singleton_append] at hv
        simp only [hv, String_eta, objInsert_append hacc]
        simp only [skipWs_cons_not_ws (show jsonWs ',' = false by decide)]
        rw [if_pos (by trivial)]
        obtain ⟨hk1, hv1, hfs1⟩ := wfFieldsB_cons.mp hwfs
        obtain ⟨hfs1k, hnd3⟩ := noDupKeys_cons.mp hnd2
        have hdisj3 : keysDisjoint (acc ++ [(k, v)]) ((k1, v1) :: fs1) = true := by
          refine keysDisjoint_append_single hdisj2 ?_
          exact hfsk
        have hf := ihf d k1 v1 fs1 (acc ++ [(k, v)]) ['\n'] w2 rest
          (by intro c hc; rw [List.mem_singleton.mp hc]; decide) hw2
          hk1 hv1 hfs1 hnd2 hdisj3 (by omega)
        rw [List.singleton_append] at hf
        rw [hf]
        simp

/-! ## Well-formedness of parser output -/

theorem any_key_objInsert {gs : List (String × JVal)} {k k1 : String} {v : JVal}
    (hg : gs.any (fun f => f.1 == k1) = false) (hne : k ≠ k1) :
    (objInsert gs k v).any (fun f => f.1 == k1) = false := by
  induction gs with
  | nil =>
    rw [objInsert]
    simp [beq_eq_false_iff_ne.mpr hne]
  | cons g gs ih =>
    obtain ⟨k2, v2⟩ := g
    rw [List.any_cons, Bool.or_eq_false_iff] at hg
    rw [objInsert]
    split
    · rw [List.any_cons, Bool.or_eq_false_iff]
      exact ⟨by simpa using beq_eq_false_iff_ne.mpr hne, hg.2⟩
    · rw [List.any_cons, Bool.or_eq_false_iff]
      exact ⟨hg.1, ih hg.2⟩

theorem noDupKeys_objInsert {acc : List (String × JVal)} {k : String} {v : JVal}
    (h : noDupKeys acc = true) : noDupKeys (objInsert acc k v) = true := by
  induction acc with
  | nil => rfl
  | cons g gs ih =>
    obtain ⟨k1, v1⟩ := g
    rw [noDupKeys_cons] at h
    rw [objInsert]
    split
    · rename_i he
      rw [noDupKeys_cons]
      exact ⟨by rw [← he]; exact h.1, h.2⟩
    · rename_i he
      rw [noDupKeys_cons]
      exact ⟨any_key_objInsert h.1 (fun hkk => he hkk.symm), ih h.2⟩

theorem wfFieldsB_objInsert {acc : List (String × JVal)} {k : String} {v : JVal}
    (ha : wfFieldsB acc = true) (hk : wfStrB k = true) (hv : wfB v = true) :
    wfFieldsB (objInsert acc k v) = true := by
  induction acc with
  | nil =>
    rw [objInsert]
    exact wfFieldsB_cons.mpr ⟨hk, hv, by rw [wfFieldsB]⟩
  | cons g gs ih =>
    obtain ⟨k1, v1⟩ := g
    rw [wfFieldsB_cons] at ha
    rw [objInsert]
    split
    · exact wfFieldsB_cons.mpr ⟨hk, hv, ha.2.2⟩
    · exact wfFieldsB_cons.mpr ⟨ha.1, ha.2.1, ih ha.2.2⟩

theorem wf_of_parse : ∀ fuel : Nat,
    (∀ l v r, parseValue fuel l = .ok (v, r) → wfB v = true) ∧
    (∀ l vs r, parseElems fuel l = .ok (vs, r) → wfElemsB vs = true) ∧
    (∀ acc l fs r, wfFieldsB acc = true → noDupKeys acc = true →
      parseFields fuel acc l = .ok (fs, r) →
      wfFieldsB fs = true ∧ noDupKeys fs = true) := by
  intro fuel
  induction fuel with
  | zero =>
    refine ⟨?_, ?_, ?_⟩
    · intro l v r h
      rw [parseValue] at h
      exact Except.noConfusion h
    · intro l vs r h
      rw [parseElems] at h
      exact Except.noConfusion h
    · intro acc l fs r _ _ h
      rw [parseFields] at h
      exact Except.noConfusion h
  | succ fuel ih =>
    obtain ⟨ihv, ihe, ihf⟩ := ih
    refine ⟨?_, ?_, ?_⟩
    · intro l v r h
      rw [parseValue] at h
      cases hs : skipWs l with
      | nil =>
        rw [hs] at h
        exact Except.noConfusion h
      | cons c cl =>
        simp only [hs] at h
        by_cases hn : c = 'n'
        · rw [if_pos hn] at h
          split at h
          · cases h
            rw [wfB]
          · exact Except.noConfusion h
        rw [if_neg hn] at h
        by_cases ht : c = 't'
        · rw [if_pos ht] at h
          split at h
          · cases h
            rw [wfB]
          · exact Except.noConfusion h
        rw [if_neg ht] at h
        by_cases hf : c = 'f'
        · rw [if_pos hf] at h
          split at h
          · cases h
            rw [wfB]
          · exact Except.noConfusion h
        rw [if_neg hf] at h
        by_cases hq : c = '"'
        · rw [if_pos hq] at h
          cases hb : parseStringBody cl with
          | none =>
            rw [hb] at h
            exact Except.noConfusion h
          | some p =>
            obtain ⟨cs, r1⟩ := p
            simp only [hb] at h
            cases h
            rw [wfB, wfStrB, List.all_eq_true]
            exact parseStringBody_wf cl cs _ hb
        rw [if_neg hq] at h
        by_cases hlb : c = '['
        · rw [if_pos hlb] at h
          cases hs2 : skipWs cl with
          | nil =>
            rw [hs2] at h
            exact Except.noConfusion h
          | cons c1 r1 =>
            simp only [hs2] at h
            by_cases hrb : c1 = ']'
            · rw [if_pos hrb] at h
              cases h
              rw [wfB, wfElemsB]
            · rw [if_neg hrb] at h
              cases hb : parseElems fuel cl with
              | error e =>
                rw [hb] at h
                exact Except.noConfusion h
              | ok p =>
                obtain ⟨vs, r2⟩ := p
                simp only [hb] at h
                cases h
                rw [wfB]
                exact ihe cl vs _ hb
        rw [if_neg hlb] at h
        by_cases hob : c = '{'
        · rw [if_pos hob] at h
          cases hs2 : skipWs cl with
          | nil =>
            rw [hs2] at h
            exact Except.noConfusion h
          | cons c1 r1 =>
            simp only [hs2] at h
            by_cases hrb : c1 = '}'
            · rw [if_pos hrb] at h
              cases h
              rw [wfB, wfFieldsB]
              rfl
            · rw [if_neg hrb] at h
              cases hb : parseFields fuel [] cl with
              | error e =>
                rw [hb] at h
                exact Except.noConfusion h
              | ok p =>
                obtain ⟨fs, r2⟩ := p
                simp only [hb] at h
                cases h
                rw [wfB, Bool.and_eq_true]
                exact ihf [] cl _ _ (by rw [wfFieldsB]) rfl hb
        rw [if_neg hob] at h
        cases hb : parseNumber (c :: cl) with
        | none =>
          rw [hb] at h
          exact Except.noConfusion h
        | some p =>
          obtain ⟨n, r1⟩ := p
          simp only [hb] at h
          cases h
          rw [wfB]
    · intro l vs r h
      rw [parseElems] at h
      cases hpv : parseValue fuel l with
      | error e =>
        rw [hpv] at h
        exact Except.noConfusion h
      | ok p =>
        obtain ⟨v0, r0⟩ := p
        simp only [hpv] at h
        cases hs : skipWs r0 with
        | nil =>
          rw [hs] at h
          exact Except.noConfusion h
        | cons c r1 =>
          simp only [hs] at h
          by_cases hc : c = ','
          · rw [if_pos hc] at h
            cases hpe : parseElems fuel r1 with
            | error e =>
              rw [hpe] at h
              exact Except.noConfusion h
            | ok p2 =>
              obtain ⟨vs0, r2⟩ := p2
              simp only [hpe] at h
              cases h
              exact wfElemsB_cons.mpr ⟨ihv l v0 r0 hpv, ihe r1 vs0 _ hpe⟩
          · rw [if_neg hc] at h
            by_cases hc2 : c = ']'
            · rw [if_pos hc2] at h
              cases h
              exact wfElemsB_cons.mpr ⟨ihv l v0 r0 hpv, by rw [wfElemsB]⟩
            · rw [if_neg hc2] at h
              exact Except.noConfusion h
    · intro acc l fs r hacc hdup h
      rw [parseFields] at h
      cases hs : skipWs l with
      | nil =>
        rw [hs] at h
        exact Except.noConfusion h
      | cons c r0 =>
        simp only [hs] at h
        by_cases hq : c = '"'
        · rw [if_pos hq] at h
          cases hb : parseStringBody r0 with
          | none =>
            rw [hb] at h
            exact Except.noConfusion h
          | some p =>
            obtain ⟨cs, r1⟩ := p
            simp only [hb] at h
            cases hs2 : skipWs r1 with
            | nil =>
              rw [hs2] at h
              exact Except.noConfusion h
            | cons c1 r2 =>
              simp only [hs2] at h
              by_cases hcol : c1 = ':'
              · rw [if_pos hcol] at h
                cases hpv : parseValue fuel r2 with
                | error e =>
                  rw [hpv] at h
                  exact Except.noConfusion h
                | ok p2 =>
                  obtain ⟨v0, r3⟩ := p2
                  simp only [hpv] at h
                  have hacc1 : wfFieldsB (objInsert acc ⟨cs⟩ v0) = true :=
                    wfFieldsB_objInsert hacc
                      (by
                        rw [wfStrB, List.all_eq_true]
                        exact parseStringBody_wf r0 cs r1 hb)
                      (ihv r2 v0 r3 hpv)
                  have hdup1 : noDupKeys (objInsert acc ⟨cs⟩ v0) = true :=
                    noDupKeys_objInsert hdup
                  cases hs3 : skipWs r3 with
                  | nil =>
                    rw [hs3] at h
                    exact Except.noConfusion h
                  | cons c2 r4 =>
                    simp only [hs3] at h
                    by_cases hcm : c2 = ','
                    · rw [if_pos hcm] at h
                      cases hpf : parseFields fuel (objInsert acc ⟨cs⟩ v0) r4 with
                      | error e =>
                        rw [hpf] at h
                        exact Except.noConfusion h
                      | ok p3 =>
                        obtain ⟨fs0, r5⟩ := p3
                        simp only [hpf] at h
                        cases h
                        exact ihf (objInsert acc ⟨cs⟩ v0) r4 _ _ hacc1 hdup1 hpf
                    · rw [if_neg hcm] at h
                      by_cases hcb : c2 = '}'
                      · rw [if_pos hcb] at h
                        cases h
                        exact ⟨hacc1, hdup1⟩
                      · rw [if_neg hcb] at h
                        exact Except.noConfusion h
              · rw [if_neg hcol] at h
                exact Except.noConfusion h
        · rw [if_neg hq] at h
          exact Except.noConfusion h

/-! ## The round trip through `JSON.parse` and pretty `JSON.stringify` -/

theorem JSONparse_pretty_roundtrip {T : String} {v : JVal}
    (h : JSONparse T = .ok v) :
    JSONparse (JSONstringifyPretty v) = .ok v := by
  have hwf : wfB v = true := by
    rw [JSONparse] at h
    cases hp : parseValue (2 * T.data.length + 2) T.data with
    | error e =>
      rw [hp] at h
      exact Except.noConfusion h
    | ok p =>
      obtain ⟨v0, rest⟩ := p
      simp only [hp] at h
      split at h
      · cases h
        exact (wf_of_parse _).1 T.data _ _ hp
      · exact Except.noConfusion h
  rw [JSONparse]
  have hsz : msize v ≤ 2 * (serPrettyData 0 v).length + 2 := by
    have h1 := msize_le_len 0 v
    omega
  have hmain := (parse_of_ser (2 * (serPrettyData 0 v).length + 2)).1
    0 v [] [] (by intro c hc; exact absurd hc (List.not_mem_nil c)) hwf hsz
    (by rfl)
  rw [List.nil_append, List.append_nil] at hmain
  have hdata : (JSONstringifyPretty v).data = serPrettyData 0 v := rfl
  simp only [hdata, hmain]
  rfl

/-! ## Trimming -/

theorem dropWhile_head_not {p : Char → Bool} {l : List Char} :
    ∀ c, (l.dropWhile p).head? = some c → p c = false := by
  induction l with
  | nil => intro c hc; cases hc
  | cons a l ih =>
    intro c hc
    rw [List.dropWhile_cons] at hc
    split at hc
    · exact ih c hc
    · rename_i hp
      cases hc
      exact Bool.not_eq_true _ ▸ (by simpa using hp)

theorem dropWhile_idem {p : Char → Bool} {l : List Char} :
    (l.dropWhile p).dropWhile p = l.dropWhile p := by
  cases hd : l.dropWhile p with
  | nil => rfl
  | cons c cl =>
    have hc : p c = false := by
      apply dropWhile_head_not (l := l)
      rw [hd]
      rfl
    rw [List.dropWhile_cons, hc]
    simp

theorem trimEndData_prefix (l : List Char) :
    ∃ t, l = trimEndData l ++ t ∧ ∀ c ∈ t, jsIsWs c = true := by
  refine ⟨(l.reverse.takeWhile jsIsWs).reverse, ?_, ?_⟩
  · rw [trimEndData, ← List.reverse_append, List.takeWhile_append_dropWhile,
      List.reverse_reverse]
  · intro c hc
    rw [List.mem_reverse] at hc
    exact List.mem_takeWhile_imp hc

theorem trimEndData_idem (l : List Char) :
    trimEndData (trimEndData l) = trimEndData l := by
  rw [trimEndData, trimEndData, List.reverse_reverse, dropWhile_idem]

theorem trimEndData_head? (l : List Char) :
    (trimEndData l).head? = l.head? ∨ trimEndData l = [] := by
  cases hd : trimEndData l with
  | nil => exact Or.inr rfl
  | cons c cl =>
    left
    obtain ⟨t, hsplit, _⟩ := trimEndData_prefix l
    rw [hsplit, hd, List.cons_append]
    rfl

theorem trimData_idem (l : List Char) :
    trimEndData ((trimEndData (l.dropWhile jsIsWs)).dropWhile jsIsWs) =
      trimEndData (l.dropWhile jsIsWs) := by
  have hdrop : (trimEndData (l.dropWhile jsIsWs)).dropWhile jsIsWs =
      trimEndData (l.dropWhile jsIsWs) := by
    rcases trimEndData_head? (l.dropWhile jsIsWs) with hh | hh
    · cases hd : trimEndData (l.dropWhile jsIsWs) with
      | nil => rfl
      | cons c cl =>
        have hc : jsIsWs c = false := by
          apply dropWhile_head_not (l := l)
          rw [← hh, hd]
          rfl
        rw [List.dropWhile_cons, hc]
        simp
    · rw [hh]
      rfl
  rw [hdrop, trimEndData_idem]

theorem jsTrim_idem (s : String) : jsTrim (jsTrim s) = jsTrim s := by
  rw [jsTrim, jsTrim]
  exact congrArg String.mk (trimData_idem s.data)

theorem jsTrim_empty : jsTrim "" = "" := rfl

/-! ## Joining, splitting and trimming document dumps -/

theorem jsJoin_cons_cons (sep x y : String) (ys : List String) :
    jsJoin sep (x :: y :: ys) = x ++ sep ++ jsJoin sep (y :: ys) := rfl

theorem multiDocLines_cons_cons (b b2 : List String) (bs : List (List String)) :
    multiDocLines (b :: b2 :: bs) = b ++ "---" :: multiDocLines (b2 :: bs) := rfl

theorem jsJoin_cons (sep : String) (x : String) {ys : List String}
    (hy : ys ≠ []) : jsJoin sep (x :: ys) = x ++ sep ++ jsJoin sep ys := by
  cases ys with
  | nil => exact absurd rfl hy
  | cons y ys => exact jsJoin_cons_cons sep x y ys

theorem jsJoin_append (sep : String) {xs ys : List String} (hx : xs ≠ [])
    (hy : ys ≠ []) :
    jsJoin sep (xs ++ ys) = jsJoin sep xs ++ sep ++ jsJoin sep ys := by
  induction xs with
  | nil => exact absurd rfl hx
  | cons x xs ih =>
    cases xs with
    | nil =>
      rw [List.cons_append, List.nil_append, jsJoin_cons sep x hy, jsJoin]
    | cons x2 xs2 =>
      rw [List.cons_append,
        jsJoin_cons sep x (by simp),
        jsJoin_cons sep x (by simp),
        ih (by simp)]
      simp [String.append_assoc]

theorem multiDocLines_ne_nil {bodies : List (List String)} (h : bodies ≠ [])
    (hb : ∀ b ∈ bodies, b ≠ []) : multiDocLines bodies ≠ [] := by
  cases bodies with
  | nil => exact absurd rfl h
  | cons b bs =>
    cases bs with
    | nil =>
      rw [multiDocLines]
      exact hb b (by simp)
    | cons b2 bs2 =>
      rw [multiDocLines_cons_cons]
      intro hcon
      rcases List.append_eq_nil.mp hcon with ⟨_, h2⟩
      cases h2

theorem mkDump_join {bodies : List (List String)} (h : bodies ≠ [])
    (hb : ∀ b ∈ bodies, b ≠ []) :
    jsJoin "---\n" (bodies.map mkDump) =
      jsJoin "\n" (multiDocLines bodies) ++ "\n" := by
  induction bodies with
  | nil => exact absurd rfl h
  | cons b bs ih =>
    cases bs with
    | nil =>
      rw [List.map_cons, List.map_nil, multiDocLines, jsJoin, mkDump]
    | cons b2 bs2 =>
      rw [List.map_cons, multiDocLines_cons_cons,
        jsJoin_cons _ _ (by simp),
        ih (by simp) (fun x hx => hb x (by simp [hx])),
        jsJoin_append "\n" (hb b (by simp)) (by simp),
        jsJoin_cons "\n" "---"
          (multiDocLines_ne_nil (by simp) (fun x hx => hb x (by simp [hx]))),
        mkDump]
      apply String.ext
      simp [String.data_append, String.append_assoc,
        show ("---\n" : String).data = ['-', '-', '-', '\n'] from rfl,
        show ("\n" : String).data = ['\n'] from rfl,
        show ("---" : String).data = ['-', '-', '-'] from rfl]

theorem unlines_getLast {L : List String} {line : String} {c : Char}
    (hL : L.getLast? = some line) (hc : line.data.getLast? = some c) :
    (jsJoin "\n" L).data.getLast? = some c := by
  induction L with
  | nil => cases hL
  | cons x xs ih =>
    cases xs with
    | nil =>
      rw [List.getLast?_singleton] at hL
      cases hL
      rw [jsJoin]
      exact hc
    | cons x2 xs2 =>
      rw [jsJoin_cons _ _ (by simp), String.data_append]
      rw [List.getLast?_append]
      rw [ih (by rw [← hL]; exact (List.getLast?_cons_cons ..).symm ▸ rfl)]
      rfl

theorem trimEndData_of_last_not_ws {l : List Char} {c : Char}
    (hl : l.getLast? = some c) (hc : jsIsWs c = false) :
    trimEndData l = l := by
  rw [trimEndData]
  have hrev : l.reverse.head? = some c := by rw [List.head?_reverse, hl]
  cases hd : l.reverse with
  | nil => rw [hd] at hrev; cases hrev
  | cons c0 t =>
    rw [hd] at hrev
    rw [List.head?_cons] at hrev
    cases hrev
    rw [List.dropWhile_cons, hc]
    simp only [Bool.false_eq_true, if_false]
    rw [← hd, List.reverse_reverse]

theorem trimEndData_append_newline (l : List Char) :
    trimEndData (l ++ ['\n']) = trimEndData l := by
  rw [trimEndData, trimEndData, List.reverse_append]
  rfl

theorem splitOnCharData_ne_nil (c : Char) (l : List Char) :
    splitOnCharData c l ≠ [] := by
  induction l with
  | nil => simp [splitOnCharData]
  | cons a rest ih =>
    rw [splitOnCharData]
    split
    · simp
    · split
      · simp
      · simp

theorem splitOnCharData_no_sep {c : Char} {l : List Char} (h : c ∉ l) :
    splitOnCharData c l = [l] := by
  induction l with
  | nil => rfl
  | cons a rest ih =>
    rw [splitOnCharData, if_neg (by rintro rfl; exact h (by simp)),
      ih (fun hm => h (by simp [hm]))]

theorem splitOnCharData_append {c : Char} {l1 l2 : List Char} (h : c ∉ l1) :
    splitOnCharData c (l1 ++ c :: l2) = l1 :: splitOnCharData c l2 := by
  induction l1 with
  | nil =>
    rw [List.nil_append, splitOnCharData, if_pos rfl]
  | cons a rest ih =>
    rw [List.cons_append, splitOnCharData,
      if_neg (by rintro rfl; exact h (by simp)),
      ih (fun hm => h (by simp [hm]))]

theorem unlines_splitLines {L : List String} (hL : L ≠ [])
    (hnl : ∀ line ∈ L, '\n' ∉ line.data) :
    splitOnCharData '\n' (jsJoin "\n" L).data = L.map String.data := by
  induction L with
  | nil => exact absurd rfl hL
  | cons x xs ih =>
    cases xs with
    | nil =>
      rw [jsJoin, List.map_cons, List.map_nil]
      exact splitOnCharData_no_sep (hnl x (by simp))
    | cons x2 xs2 =>
      rw [jsJoin_cons _ _ (by simp), String.data_append, String.data_append]
      rw [show ("\n" : String).data = ['\n'] from rfl]
      rw [List.append_assoc, List.singleton_append]
      rw [splitOnCharData_append (hnl x (by simp))]
      rw [ih (by simp) (fun line hm => hnl line (by simp [hm]))]
      simp

theorem jsSplitLines_unlines {L : List String} (hL : L ≠ [])
    (hnl : ∀ line ∈ L, '\n' ∉ line.data) :
    jsSplitLines (jsJoin "\n" L) = L := by
  rw [jsSplitLines, unlines_splitLines hL hnl, List.map_map]
  have : (fun l : List Char => (⟨l⟩ : String)) ∘ String.data = id := by
    funext s
    rfl
  rw [this, List.map_id]

theorem multiDocLines_mem {bodies : List (List String)} {line : String}
    (h : line ∈ multiDocLines bodies) :
    line = "---" ∨ ∃ b ∈ bodies, line ∈ b := by
  induction bodies with
  | nil => cases h
  | cons b bs ih =>
    cases bs with
    | nil =>
      rw [multiDocLines] at h
      exact Or.inr ⟨b, by simp, h⟩
    | cons b2 bs2 =>
      rw [multiDocLines_cons_cons] at h
      rcases List.mem_append.mp h with h1 | h2
      · exact Or.inr ⟨b, by simp, h1⟩
      · rcases List.mem_cons.mp h2 with rfl | h3
        · exact Or.inl rfl
        · rcases ih h3 with h4 | ⟨b3, hb3, hl3⟩
          · exact Or.inl h4
          · exact Or.inr ⟨b3, by simp [hb3], hl3⟩

theorem multiDocLines_count {bodies : List (List String)} (h : bodies ≠ [])
    (hsep : ∀ b ∈ bodies, ∀ line ∈ b, line ≠ "---") :
    List.count "---" (multiDocLines bodies) = bodies.length - 1 := by
  induction bodies with
  | nil => exact absurd rfl h
  | cons b bs ih =>
    have hcb : List.count "---" b = 0 := by
      rw [List.count_eq_zero]
      intro hm
      exact hsep b (by simp) "---" hm rfl
    cases bs with
    | nil =>
      rw [multiDocLines, hcb]
      simp
    | cons b2 bs2 =>
      rw [multiDocLines_cons_cons, List.count_append, List.count_cons, hcb,
        ih (by simp) (fun x hx => hsep x (by simp [hx]))]
      simp

theorem multiDocLines_head {bodies : List (List String)} (h : bodies ≠ [])
    (hb : ∀ b ∈ bodies, b ≠ [])
    (hsep : ∀ b ∈ bodies, ∀ line ∈ b, line ≠ "---") :
    (multiDocLines bodies).head? ≠ some "---" := by
  cases bodies with
  | nil => exact absurd rfl h
  | cons b bs =>
    have hbne : b ≠ [] := hb b (by simp)
    obtain ⟨x, xs, rfl⟩ : ∃ x xs, b = x :: xs := by
      cases b with
      | nil => exact absurd rfl hbne
      | cons x xs => exact ⟨x, xs, rfl⟩
    have hx : x ≠ "---" := hsep (x :: xs) (by simp) x (by simp)
    cases bs with
    | nil =>
      rw [multiDocLines, List.head?_cons]
      simpa using hx
    | cons b2 bs2 =>
      rw [multiDocLines_cons_cons, List.cons_append, List.head?_cons]
      simpa using hx

theorem multiDocLines_getLast {bodies : List (List String)} (h : bodies ≠ [])
    (hb : ∀ b ∈ bodies, b ≠ [])
    (hsep : ∀ b ∈ bodies, ∀ line ∈ b, line ≠ "---") :
    (multiDocLines bodies).getLast? ≠ some "---" := by
  induction bodies with
  | nil => exact absurd rfl h
  | cons b bs ih =>
    cases bs with
    | nil =>
      rw [multiDocLines]
      intro hcon
      have := List.mem_of_mem_getLast? hcon
      exact hsep b (by simp) "---" this rfl
    | cons b2 bs2 =>
      rw [multiDocLines_cons_cons]
      have hmdl := @multiDocLines_ne_nil (b2 :: bs2) (by simp)
        (fun x hx => hb x (by simp [hx]))
      have hih : (multiDocLines (b2 :: bs2)).getLast? ≠ some "---" :=
        ih (by simp) (fun x hx => hb x (by simp [hx]))
          (fun x hx => hsep x (by simp [hx]))
      obtain ⟨p, ps, hmd⟩ : ∃ p ps, multiDocLines (b2 :: bs2) = p :: ps := by
        cases hmd : multiDocLines (b2 :: bs2) with
        | nil => exact absurd hmd hmdl
        | cons p ps => exact ⟨p, ps, rfl⟩
      rw [hmd] at hih
      rw [hmd, List.getLast?_append, List.getLast?_cons_cons]
      intro hcon
      apply hih
      cases hg : (p :: ps).getLast? with
      | none =>
        rw [List.getLast?_cons] at hg
        cases ps <;> simp at hg
      | some m =>
        rw [hg] at hcon
        rw [Option.or] at hcon
        exact hcon

/-! ## Session field lemmas -/

theorem setInputDoc_inputDoc (s : Session) (t : String) :
    (setInputDoc s t).inputDoc = t := by
  rw [setInputDoc]
  split <;> rfl

theorem setInputDoc_outputDoc (s : Session) (t : String) :
    (setInputDoc s t).outputDoc = s.outputDoc := by
  rw [setInputDoc]
  split <;> rfl

theorem setInputDoc_storeOut (s : Session) (t : String) :
    (setInputDoc s t).storeOut = s.storeOut := by
  rw [setInputDoc]
  split <;> rfl

theorem setInputDoc_status (s : Session) (t : String) :
    (setInputDoc s t).status = s.status := by
  rw [setInputDoc]
  split <;> rfl

theorem setInputDoc_focusInput (s : Session) (t : String) :
    (setInputDoc s t).focusInput = s.focusInput := by
  rw [setInputDoc]
  split <;> rfl

theorem setInputDoc_storeIn_fires {s : Session} {t : String}
    (h : docChangedFires s.inputDoc t = true) :
    (setInputDoc s t).storeIn = some t := by
  rw [setInputDoc, if_pos h]
  rfl

theorem setInputDoc_debounce_fires {s : Session} {t : String}
    (h : docChangedFires s.inputDoc t = true) :
    (setInputDoc s t).debounce = some t := by
  rw [setInputDoc, if_pos h]
  rfl

theorem setInputDoc_storeIn_silent {s : Session} {t : String}
    (h : docChangedFires s.inputDoc t = false) :
    (setInputDoc s t).storeIn = s.storeIn := by
  rw [setInputDoc, if_neg (by rw [h]; exact Bool.false_ne_true)]

theorem setInputDoc_debounce_silent {s : Session} {t : String}
    (h : docChangedFires s.inputDoc t = false) :
    (setInputDoc s t).debounce = s.debounce := by
  rw [setInputDoc, if_neg (by rw [h]; exact Bool.false_ne_true)]

theorem setOutputDoc_outputDoc (s : Session) (t : String) :
    (setOutputDoc s t).outputDoc = t := by
  rw [setOutputDoc]
  split <;> rfl

theorem setOutputDoc_inputDoc (s : Session) (t : String) :
    (setOutputDoc s t).inputDoc = s.inputDoc := by
  rw [setOutputDoc]
  split <;> rfl

theorem setOutputDoc_storeIn (s : Session) (t : String) :
    (setOutputDoc s t).storeIn = s.storeIn := by
  rw [setOutputDoc]
  split <;> rfl

theorem setOutputDoc_debounce (s : Session) (t : String) :
    (setOutputDoc s t).debounce = s.debounce := by
  rw [setOutputDoc]
  split <;> rfl

theorem setOutputDoc_status (s : Session) (t : String) :
    (setOutputDoc s t).status = s.status := by
  rw [setOutputDoc]
  split <;> rfl

theorem setOutputDoc_focusInput (s : Session) (t : String) :
    (setOutputDoc s t).focusInput = s.focusInput := by
  rw [setOutputDoc]
  split <;> rfl

/-! ## The canonical YAML output -/

theorem multiDocLines_getLast?_eq {bodies : List (List String)} {bl : List String}
    (hlast : bodies.getLast? = some bl) (hb : ∀ b ∈ bodies, b ≠ []) :
    (multiDocLines bodies).getLast? = bl.getLast? := by
  induction bodies with
  | nil => cases hlast
  | cons b bs ih =>
    cases bs with
    | nil =>
      rw [List.getLast?_singleton] at hlast
      cases hlast
      rw [multiDocLines]
    | cons b2 bs2 =>
      rw [multiDocLines_cons_cons, List.getLast?_append]
      have hmdl := @multiDocLines_ne_nil (b2 :: bs2) (by simp)
        (fun x hx => hb x (by simp [hx]))
      have hih := ih (by rw [← hlast]; exact (List.getLast?_cons_cons ..).symm ▸ rfl)
        (fun x hx => hb x (by simp [hx]))
      obtain ⟨p, ps, hmd⟩ : ∃ p ps, multiDocLines (b2 :: bs2) = p :: ps := by
        cases hmd : multiDocLines (b2 :: bs2) with
        | nil => exact absurd hmd hmdl
        | cons p ps => exact ⟨p, ps, rfl⟩
      rw [hmd, List.getLast?_cons_cons, ← hmd, hih]
      obtain ⟨bl2, hbl2⟩ : ∃ bl2, bl.getLast? = some bl2 := by
        have hblne : bl ≠ [] := by
          apply hb
          exact List.mem_of_mem_getLast? hlast
        cases hbl : bl.getLast? with
        | none =>
          cases bl with
          | nil => exact absurd rfl hblne
          | cons q qs => rw [List.getLast?_cons] at hbl; cases qs <;> simp at hbl
        | some m => exact ⟨m, rfl⟩
      rw [hbl2]
      rfl

theorem yamlFormattedOf {Doc : Type} (E : YamlEngine Doc) (docs : List Doc)
    {bodies : List (List String)}
    (hmap : docs.map E.dump = bodies.map mkDump) (hdne : docs ≠ [])
    (hb : ∀ b ∈ bodies, b ≠ [])
    (hlastc : ∃ bl line c, bodies.getLast? = some bl ∧ bl.getLast? = some line ∧
      line.data.getLast? = some c ∧ jsIsWs c = false) :
    jsTrimEnd (yamlJoinDumps E docs) = jsJoin "\n" (multiDocLines bodies) := by
  obtain ⟨bl, line, c, hbl, hline, hc, hcw⟩ := hlastc
  have hlast2 : (multiDocLines bodies).getLast? = some line := by
    rw [multiDocLines_getLast?_eq hbl hb, hline]
  have hulast : (jsJoin "\n" (multiDocLines bodies)).data.getLast? = some c :=
    unlines_getLast hlast2 hc
  have htrim : ∀ U : String, U.data.getLast? = some c →
      jsTrimEnd (U ++ "\n") = U := by
    intro U hU
    apply String.ext
    rw [jsTrimEnd, String.data_append,
      show ("\n" : String).data = ['\n'] from rfl]
    show trimEndData (U.data ++ ['\n']) = U.data
    rw [trimEndData_append_newline, trimEndData_of_last_not_ws hU hcw]
  cases docs with
  | nil => exact absurd rfl hdne
  | cons dd ds =>
    cases ds with
    | nil =>
      rw [List.map_cons, List.map_nil] at hmap
      obtain ⟨b, hb1, hmk⟩ : ∃ b, bodies = [b] ∧ E.dump dd = mkDump b := by
        cases bodies with
        | nil => cases hmap
        | cons b bs =>
          cases bs with
          | nil =>
            rw [List.map_cons, List.map_nil] at hmap
            refine ⟨b, rfl, ?_⟩
            injection hmap
          | cons b2 bs2 =>
            rw [List.map_cons, List.map_cons] at hmap
            injection hmap with h1 h2
            cases h2
      subst hb1
      rw [multiDocLines] at hulast ⊢
      show jsTrimEnd (yamlJoinDumps E [dd]) = _
      rw [show yamlJoinDumps E [dd] = E.dump dd from rfl, hmk, mkDump]
      exact htrim _ hulast
    | cons dd2 ds2 =>
      have hbne : bodies ≠ [] := by
        intro hcon
        rw [hcon] at hmap
        simp at hmap
      show jsTrimEnd (yamlJoinDumps E (dd :: dd2 :: ds2)) = _
      rw [show yamlJoinDumps E (dd :: dd2 :: ds2) =
          jsJoin "---\n" ((dd :: dd2 :: ds2).map E.dump) from rfl,
        hmap, mkDump_join hbne hb]
      exact htrim _ hulast

/-! # Claim theorems -/

/-- C9: performing the Clear action, from any session state and for either
format session (the two sessions differ only in their idle message),
leaves both panes empty, both persisted keys for the format absent from
the store — the intermediate `onChange` writes fired by the two clearing
`setEditorDoc` calls are overridden by the subsequent `removeItem`s — the
status reset to Idle, and focus returned to the input pane. -/
theorem claim_C9_clear (idleMsg : String) (s : Session) :
    (clearAction idleMsg s).inputDoc = "" ∧
    (clearAction idleMsg s).outputDoc = "" ∧
    (clearAction idleMsg s).storeIn = none ∧
    (clearAction idleMsg s).storeOut = none ∧
    (clearAction idleMsg s).status = .idle idleMsg ∧
    (clearAction idleMsg s).focusInput = true := by
  refine ⟨?_, ?_, rfl, rfl, rfl, rfl⟩
  · show (setOutputDoc (setInputDoc s "") "").inputDoc = ""
    rw [setOutputDoc_inputDoc, setInputDoc_inputDoc]
  · show (setOutputDoc (setInputDoc s "") "").outputDoc = ""
    rw [setOutputDoc_outputDoc]

theorem processJSON_triple_congr {s1 s2 : Session} (minify : Bool)
    (hin : jsTrim s1.inputDoc = jsTrim s2.inputDoc) :
    (processJSON s1 minify).outputDoc = (processJSON s2 minify).outputDoc ∧
    (processJSON s1 minify).storeOut = (processJSON s2 minify).storeOut ∧
    (processJSON s1 minify).status = (processJSON s2 minify).status := by
  by_cases hr : jsTrim s1.inputDoc = ""
  · rw [processJSON, processJSON, if_pos hr, if_pos (by rw [← hin]; exact hr)]
    simp [setOutputDoc_outputDoc]
  · rw [processJSON, processJSON, if_neg hr, if_neg (by rw [← hin]; exact hr),
      ← hin]
    cases JSONparse (jsTrim s1.inputDoc) <;>
      simp [setOutputDoc_outputDoc]

theorem processYAML_triple_congr {Doc : Type} (E : YamlEngine Doc)
    {s1 s2 : Session} (hin : jsTrim s1.inputDoc = jsTrim s2.inputDoc) :
    (processYAML E s1).outputDoc = (processYAML E s2).outputDoc ∧
    (processYAML E s1).storeOut = (processYAML E s2).storeOut ∧
    (processYAML E s1).status = (processYAML E s2).status := by
  by_cases hr : jsTrim s1.inputDoc = ""
  · rw [processYAML, processYAML, if_pos hr, if_pos (by rw [← hin]; exact hr)]
    simp [setOutputDoc_outputDoc]
  · rw [processYAML, processYAML, if_neg hr, if_neg (by rw [← hin]; exact hr),
      ← hin]
    cases E.loadAll (jsTrim s1.inputDoc) <;>
      simp [setOutputDoc_outputDoc]

/-- C10: the forward formatting operations are invariant under trimming
the input: for any session state, any input text `t`, either JSON mode and
any YAML engine, running the processor with the input pane holding `t`
produces the same output pane content, the same persisted output value and
the same status as running it with the input pane holding `jsTrim t` —
leading and trailing whitespace never affects the canonical result. -/
theorem claim_C10_trim_invariance {Doc : Type} (E : YamlEngine Doc)
    (s : Session) (t : String) (minify : Bool) :
    ((processJSON { s with inputDoc := t } minify).outputDoc =
       (processJSON { s with inputDoc := jsTrim t } minify).outputDoc ∧
     (processJSON { s with inputDoc := t } minify).storeOut =
       (processJSON { s with inputDoc := jsTrim t } minify).storeOut ∧
     (processJSON { s with inputDoc := t } minify).status =
       (processJSON { s with inputDoc := jsTrim t } minify).status) ∧
    ((processYAML E { s with inputDoc := t }).outputDoc =
       (processYAML E { s with inputDoc := jsTrim t }).outputDoc ∧
     (processYAML E { s with inputDoc := t }).storeOut =
       (processYAML E { s with inputDoc := jsTrim t }).storeOut ∧
     (processYAML E { s with inputDoc := t }).status =
       (processYAML E { s with inputDoc := jsTrim t }).status) := by
  constructor
  · exact processJSON_triple_congr minify (by simp [jsTrim_idem])
  · exact processYAML_triple_congr E (by simp [jsTrim_idem])

/-- C4: for every non-empty trimmed input whose parse fails — JSON via
`JSON.parse`, YAML via `loadAll` — the forward formatting operation clears
the Output Pane, removes the persisted output key, and sets an error
status carrying the parser's message; the Input Pane content and its
persisted copy are untouched, and nothing is thrown further (the result is
an ordinary session state). -/
theorem claim_C4_parse_failure {Doc : Type} (E : YamlEngine Doc) (s : Session)
    (minify : Bool) :
    (∀ msg, jsTrim s.inputDoc ≠ "" →
      JSONparse (jsTrim s.inputDoc) = .error msg →
      (processJSON s minify).outputDoc = "" ∧
      (processJSON s minify).storeOut = none ∧
      (processJSON s minify).status = .error "Invalid JSON" msg ∧
      (processJSON s minify).inputDoc = s.inputDoc ∧
      (processJSON s minify).storeIn = s.storeIn) ∧
    (∀ err, jsTrim s.inputDoc ≠ "" →
      E.loadAll (jsTrim s.inputDoc) = .error err →
      (processYAML E s).outputDoc = "" ∧
      (processYAML E s).storeOut = none ∧
      (processYAML E s).status = .error
        ("Invalid YAML" ++
          (if yamlErrDetail err = "" then "" else " · " ++ yamlErrDetail err))
        err.message ∧
      (processYAML E s).inputDoc = s.inputDoc ∧
      (processYAML E s).storeIn = s.storeIn) := by
  constructor
  · intro msg h1 h2
    rw [processJSON, if_neg h1]
    simp only [h2]
    simp [setOutputDoc_outputDoc, setOutputDoc_inputDoc, setOutputDoc_storeIn]
  · intro err h1 h2
    rw [processYAML, if_neg h1]
    simp only [h2]
    simp [setOutputDoc_outputDoc, setOutputDoc_inputDoc, setOutputDoc_storeIn,
      yamlErrDetail]

/-- C4 witness: the malformed JSON input `{a:1}` and a failing YAML engine
exhibit the error path concretely. -/
theorem claim_C4_witness :
    ((processJSON ⟨"{a:1}", "old", some "{a:1}", some "old", .idle "", none,
        true⟩ false).outputDoc = "" ∧
     (processJSON ⟨"{a:1}", "old", some "{a:1}", some "old", .idle "", none,
        true⟩ false).storeOut = none ∧
     (processJSON ⟨"{a:1}", "old", some "{a:1}", some "old", .idle "", none,
        true⟩ false).status =
       .error "Invalid JSON" "Expected string key in object" ∧
     (processJSON ⟨"{a:1}", "old", some "{a:1}", some "old", .idle "", none,
        true⟩ false).inputDoc = "{a:1}" ∧
     (processJSON ⟨"{a:1}", "old", some "{a:1}", some "old", .idle "", none,
        true⟩ false).storeIn = some "{a:1}") ∧
    ((processYAML ⟨fun _ => .error ⟨"bad indent", some ⟨1, 2⟩⟩,
        fun d : Unit => ""⟩
      ⟨"a:\t1", "old", some "a:\t1", some "old", .idle "", none, true⟩).status =
      .error ("Invalid YAML" ++ (" · " ++ ("Line " ++ "2" ++ ", Col " ++ "3")))
        "bad indent") := by
  constructor
  · exact (claim_C4_parse_failure ⟨fun _ => .error ⟨"", none⟩,
      fun _ : Unit => ""⟩ _ false).1 "Expected string key in object"
      (by decide) (by rfl)
  · have h := (claim_C4_parse_failure
      (⟨fun _ => .error ⟨"bad indent", some ⟨1, 2⟩⟩, fun _ : Unit => ""⟩ :
        YamlEngine Unit)
      ⟨"a:\t1", "old", some "a:\t1", some "old", .idle "", none, true⟩
      false).2 ⟨"bad indent", some ⟨1, 2⟩⟩ (by decide) (by rfl)
    have h3 := h.2.2.1
    rw [h3]
    rfl

/-- C7: after every successful format the `ok` status line is computed
from the canonical output text now in the Output Pane — its
`split('\n')` line count and its UTF-8 `Blob` byte size — not from the
raw input; and the size display switches from bytes to kilobytes with one
decimal place at the 1024-byte threshold (`size > 1024`). -/
theorem claim_C7_status_metadata {Doc : Type} (E : YamlEngine Doc) (s : Session)
    (minify : Bool) :
    (∀ v, jsTrim s.inputDoc ≠ "" → JSONparse (jsTrim s.inputDoc) = .ok v →
      (processJSON s minify).status =
        .ok (okStatusMsg "JSON" (processJSON s minify).outputDoc)) ∧
    (∀ docs, jsTrim s.inputDoc ≠ "" →
      E.loadAll (jsTrim s.inputDoc) = .ok docs →
      (processYAML E s).status =
        .ok (okStatusMsg "YAML" (processYAML E s).outputDoc)) ∧
    (∀ f : String, 1024 < blobSize f →
      sizeStrOf f = jsToFixed1Kb (blobSize f) ++ " KB") ∧
    (∀ f : String, ¬1024 < blobSize f →
      sizeStrOf f = toString (blobSize f) ++ " B") := by
  refine ⟨?_, ?_, ?_, ?_⟩
  · intro v h1 h2
    rw [processJSON, if_neg h1]
    simp only [h2]
    simp [setOutputDoc_outputDoc]
  · intro docs h1 h2
    rw [processYAML, if_neg h1]
    simp only [h2]
    simp [setOutputDoc_outputDoc]
  · intro f hf
    rw [sizeStrOf]
    simp only [gt_iff_lt, if_pos hf]
  · intro f hf
    rw [sizeStrOf]
    simp only [gt_iff_lt, if_neg hf]

/-- C7 witness: the spec's own example `{"name":"DevFormat","awesome":true}`
reports its status from the canonical output text, which formats to four
lines and 44 bytes. -/
theorem claim_C7_witness :
    (processJSON ⟨"\x7b\"name\":\"DevFormat\",\"awesome\":true\x7d", "", none, none,
      .idle "", none, true⟩ false).status =
      .ok (okStatusMsg "JSON"
        (processJSON ⟨"\x7b\"name\":\"DevFormat\",\"awesome\":true\x7d", "", none,
          none, .idle "", none, true⟩ false).outputDoc) ∧
    okStatusMsg "JSON" "\x7b\n  \"name\": \"DevFormat\",\n  \"awesome\": true\n\x7d" =
      "Valid JSON · 4 lines · 44 B" := by
  constructor
  · exact (claim_C7_status_metadata
      (⟨fun _ => .error ⟨"", none⟩, fun _ : Unit => ""⟩ : YamlEngine Unit) _
      false).1
      (JVal.obj [("name", .str "DevFormat"), ("awesome", .bool true)])
      (by decide) (by rfl)
  · rfl

/-- C8: for every YAML parse failure, if the engine supplies a position
marker the error status carries the 1-based line and column obtained by
incrementing the engine's 0-based mark, joined to the `Invalid YAML`
message; if no marker is supplied the status message is exactly
`Invalid YAML` and only the engine's message text is surfaced as the
detail. -/
theorem claim_C8_yaml_error_position {Doc : Type} (E : YamlEngine Doc)
    (s : Session) :
    (∀ err l c, jsTrim s.inputDoc ≠ "" →
      E.loadAll (jsTrim s.inputDoc) = .error err →
      err.mark = some ⟨l, c⟩ →
      yamlErrDetail err =
        "Line " ++ toString (l + 1) ++ (", Col " ++ toString (c + 1)) ∧
      (processYAML E s).status =
        .error ("Invalid YAML" ++ (" · " ++ yamlErrDetail err)) err.message) ∧
    (∀ err, jsTrim s.inputDoc ≠ "" →
      E.loadAll (jsTrim s.inputDoc) = .error err →
      err.mark = none →
      (processYAML E s).status = .error "Invalid YAML" err.message) := by
  constructor
  · intro err l c h1 h2 hm
    have hdetail : yamlErrDetail err =
        "Line " ++ toString (l + 1) ++ (", Col " ++ toString (c + 1)) := by
      rw [yamlErrDetail, hm]
      simp [String.append_assoc]
    refine ⟨hdetail, ?_⟩
    rw [processYAML, if_neg h1]
    simp only [h2]
    have hne : yamlErrDetail err ≠ "" := by
      rw [hdetail]
      intro hcon
      have := congrArg String.data hcon
      rw [String.data_append, String.data_append] at this
      have h5 : ("Line " : String).data = ['L', 'i', 'n', 'e', ' '] := rfl
      rw [h5] at this
      cases this
    simp only [setOutputDoc_status, if_neg hne]
  · intro err h1 h2 hm
    have hdetail : yamlErrDetail err = "" := by
      rw [yamlErrDetail, hm]
    have happ : ("Invalid YAML" : String) ++ "" = "Invalid YAML" := by
      apply String.ext
      rw [String.data_append]
      simp
    rw [processYAML, if_neg h1]
    simp only [h2]
    simp [hdetail, happ]

/-- C8 witness: an engine failing with mark line 4, column 1 (0-based)
reports `Line 5, Col 2`; one failing without a mark reports only the
message. -/
theorem claim_C8_witness :
    (yamlErrDetail ⟨"tab error", some ⟨4, 1⟩⟩ =
      "Line " ++ toString (4 + 1) ++ (", Col " ++ toString (1 + 1)) ∧
     (processYAML (⟨fun _ => .error ⟨"tab error", some ⟨4, 1⟩⟩,
        fun _ : Unit => ""⟩ : YamlEngine Unit)
       ⟨"x: 1", "", none, none, .idle "", none, true⟩).status =
      .error ("Invalid YAML" ++ (" · " ++ yamlErrDetail ⟨"tab error", some ⟨4, 1⟩⟩))
        "tab error") ∧
    (processYAML (⟨fun _ => .error ⟨"plain error", none⟩,
        fun _ : Unit => ""⟩ : YamlEngine Unit)
      ⟨"x: 1", "", none, none, .idle "", none, true⟩).status =
      .error "Invalid YAML" "plain error" := by
  constructor
  · exact (claim_C8_yaml_error_position
      (⟨fun _ => .error ⟨"tab error", some ⟨4, 1⟩⟩, fun _ : Unit => ""⟩ :
        YamlEngine Unit)
      ⟨"x: 1", "", none, none, .idle "", none, true⟩).1
      ⟨"tab error", some ⟨4, 1⟩⟩ 4 1 (by decide) (by rfl) (by rfl)
  · exact (claim_C8_yaml_error_position
      (⟨fun _ => .error ⟨"plain error", none⟩, fun _ : Unit => ""⟩ :
        YamlEngine Unit)
      ⟨"x: 1", "", none, none, .idle "", none, true⟩).2
      ⟨"plain error", none⟩ (by decide) (by rfl) (by rfl)

/-- C1 (code bug): the Output Pane edit-change handler performs no backward
synchronization at all.  With the input pane holding `{}` and the output
pane edited by the user to `[1]` — a text `JSON.parse` accepts — the
handler only persists the raw output; no debounced dry-run parse is
scheduled (the session's debounce belongs to the input chain and stays
`none`, so firing it changes nothing), and the Input Pane never receives
the text, contradicting the promised backward edit propagation. -/
theorem claim_C1_no_backward_sync :
    (JSONparse "[1]" = .ok (.arr [.num 1])) ∧
    (userEditOutput ⟨"{}", "[]", some "{}", some "[]", .idle "", none, true⟩
        "[1]").inputDoc = "{}" ∧
    (userEditOutput ⟨"{}", "[]", some "{}", some "[]", .idle "", none, true⟩
        "[1]").storeIn = some "{}" ∧
    (userEditOutput ⟨"{}", "[]", some "{}", some "[]", .idle "", none, true⟩
        "[1]").debounce = none ∧
    debounceFire (fun s1 => processJSON s1 false)
        (userEditOutput ⟨"{}", "[]", some "{}", some "[]", .idle "", none, true⟩
          "[1]") =
      userEditOutput ⟨"{}", "[]", some "{}", some "[]", .idle "", none, true⟩
        "[1]" ∧
    (userEditOutput ⟨"{}", "[]", some "{}", some "[]", .idle "", none, true⟩
        "[1]").storeOut = some "[1]" := by
  refine ⟨rfl, rfl, rfl, rfl, rfl, rfl⟩

/-- C2 counterexample: there is no re-entrancy guard.  A programmatic
`setEditorDoc` write (as performed by the clear and paste actions) does
trigger the pane's edit-change handler: the write `{}` to an input pane
holding `a` persists the text and restarts the debounce, and a write to a
non-empty output pane persists the output key — contradicting the claim
that such handlers perform no persistence and no debounce restart. -/
theorem claim_C2_counterexample :
    (setInputDoc ⟨"a", "b", none, none, .idle "", none, true⟩ "{}").storeIn ≠
      (⟨"a", "b", none, none, .idle "", none, true⟩ : Session).storeIn ∧
    (setInputDoc ⟨"a", "b", none, none, .idle "", none, true⟩ "{}").debounce ≠
      (⟨"a", "b", none, none, .idle "", none, true⟩ : Session).debounce ∧
    (setOutputDoc ⟨"a", "b", none, none, .idle "", none, true⟩ "x").storeOut ≠
      (⟨"a", "b", none, none, .idle "", none, true⟩ : Session).storeOut := by
  refine ⟨?_, ?_, ?_⟩ <;> decide

/-- C2 amended: a programmatic `setEditorDoc` write fires the pane's
ordinary change handler whenever the dispatched change set is non-empty:
the input-pane handler persists the written text and restarts the
debounce, the output-pane handler persists the written text; only the
no-change dispatch (replacing an empty document by the empty string)
leaves the handlers silent.  The propagation chain still cannot loop,
because the output-pane handler never writes the input pane and never
schedules any debounce work. -/
theorem claim_C2_amended (s : Session) (t : String) :
    (docChangedFires s.inputDoc t = true →
      (setInputDoc s t).storeIn = some t ∧
      (setInputDoc s t).debounce = some t) ∧
    (docChangedFires s.outputDoc t = true →
      (setOutputDoc s t).storeOut = some t) ∧
    (docChangedFires s.inputDoc t = false →
      setInputDoc s t = { s with inputDoc := t }) ∧
    (docChangedFires s.outputDoc t = false →
      setOutputDoc s t = { s with outputDoc := t }) ∧
    (setOutputDoc s t).inputDoc = s.inputDoc ∧
    (setOutputDoc s t).debounce = s.debounce := by
  refine ⟨?_, ?_, ?_, ?_, setOutputDoc_inputDoc s t, setOutputDoc_debounce s t⟩
  · intro h
    exact ⟨setInputDoc_storeIn_fires h, setInputDoc_debounce_fires h⟩
  · intro h
    rw [setOutputDoc, if_pos h]
    rfl
  · intro h
    rw [setInputDoc, if_neg (by rw [h]; exact Bool.false_ne_true)]
  · intro h
    rw [setOutputDoc, if_neg (by rw [h]; exact Bool.false_ne_true)]

/-- C2 amended, witness: the concrete programmatic write of the
counterexample persists and restarts the debounce as the amended claim
states. -/
theorem claim_C2_amended_witness :
    (setInputDoc ⟨"a", "b", none, none, .idle "", none, true⟩ "{}").storeIn =
      some "{}" ∧
    (setInputDoc ⟨"a", "b", none, none, .idle "", none, true⟩ "{}").debounce =
      some "{}" :=
  (claim_C2_amended ⟨"a", "b", none, none, .idle "", none, true⟩ "{}").1
    (by decide)

/-- C3 counterexample: a user edit that empties the Input Pane does not
clear the Output Pane and does not set the status to Idle — neither
immediately nor when the debounce fires.  With the output pane holding
`old` and an `ok` status, editing the input to a blank leaves both
exactly as they were. -/
theorem claim_C3_counterexample :
    (debounceFire (fun s1 => processJSON s1 false)
        (userEditInput ⟨"x", "old", some "x", some "old", .ok "m", none, true⟩
          " ")).outputDoc = "old" ∧
    (debounceFire (fun s1 => processJSON s1 false)
        (userEditInput ⟨"x", "old", some "x", some "old", .ok "m", none, true⟩
          " ")).outputDoc ≠ "" ∧
    (debounceFire (fun s1 => processJSON s1 false)
        (userEditInput ⟨"x", "old", some "x", some "old", .ok "m", none, true⟩
          " ")).status = .ok "m" ∧
    (debounceFire (fun s1 => processJSON s1 false)
        (userEditInput ⟨"x", "old", some "x", some "old", .ok "m", none, true⟩
          " ")).status ≠ .idle jsonIdleMsg ∧
    (debounceFire (fun s1 => processJSON s1 false)
        (userEditInput ⟨"x", "old", some "x", some "old", .ok "m", none, true⟩
          " ")).storeOut = some "old" := by
  refine ⟨rfl, by decide, rfl, by decide, rfl⟩

/-- C3 amended: a user edit of the Input Pane whose trimmed content is
empty persists the raw input and restarts the debounce, but nothing
clears the Output Pane: the timer callback's `val.trim()` check makes the
fire a no-op, so the Output Pane, its persisted copy and the status are
all left unchanged (for the JSON session and for the YAML session alike).
The empty-input clear-and-Idle path runs only inside an explicit
`processJSON` / `processYAML` invocation (Format, Minify or Paste). -/
theorem claim_C3_amended {Doc : Type} (E : YamlEngine Doc) (s : Session)
    (val : String) (h : jsTrim val = "") :
    ((debounceFire (fun s1 => processJSON s1 false)
        (userEditInput s val)).outputDoc = s.outputDoc ∧
     (debounceFire (fun s1 => processJSON s1 false)
        (userEditInput s val)).storeOut = s.storeOut ∧
     (debounceFire (fun s1 => processJSON s1 false)
        (userEditInput s val)).status = s.status ∧
     (debounceFire (fun s1 => processJSON s1 false)
        (userEditInput s val)).storeIn = some val ∧
     (debounceFire (fun s1 => processJSON s1 false)
        (userEditInput s val)).inputDoc = val) ∧
    ((debounceFire (processYAML E) (userEditInput s val)).outputDoc =
       s.outputDoc ∧
     (debounceFire (processYAML E) (userEditInput s val)).status = s.status) ∧
    (jsTrim s.inputDoc = "" →
      (processJSON s false).outputDoc = "" ∧
      (processJSON s false).status = .idle jsonIdleMsg ∧
      (processYAML E s).outputDoc = "" ∧
      (processYAML E s).status = .idle yamlIdleMsg) := by
  have hfire : ∀ run : Session → Session,
      debounceFire run (userEditInput s val) =
        { s with inputDoc := val, storeIn := some val, debounce := none } := by
    intro run
    rw [userEditInput, inputChanged, debounceFire]
    simp only [h]
    rfl
  refine ⟨?_, ?_, ?_⟩
  · rw [hfire]
    exact ⟨rfl, rfl, rfl, rfl, rfl⟩
  · rw [hfire]
    exact ⟨rfl, rfl⟩
  · intro hs
    rw [processJSON, if_pos hs, processYAML, if_pos hs]
    refine ⟨?_, rfl, ?_, rfl⟩ <;> simp [setOutputDoc_outputDoc]

/-- C3 amended, witness: the counterexample state instantiates the amended
claim. -/
theorem claim_C3_amended_witness :
    (debounceFire (fun s1 => processJSON s1 false)
        (userEditInput ⟨"x", "old", some "x", some "old", .ok "m", none, true⟩
          " ")).outputDoc = "old" ∧
    (debounceFire (fun s1 => processJSON s1 false)
        (userEditInput ⟨"x", "old", some "x", some "old", .ok "m", none, true⟩
          " ")).storeOut = some "old" :=
  have h := (claim_C3_amended
    (⟨fun _ => .error ⟨"", none⟩, fun _ : Unit => ""⟩ : YamlEngine Unit)
    ⟨"x", "old", some "x", some "old", .ok "m", none, true⟩ " " (by decide)).1
  ⟨h.1, h.2.1⟩

/-- C5: the multi-document YAML join discipline.  Whenever `loadAll`
yields documents whose `dump`s have the engine's shape (each one a list of
newline-free lines other than `---`, joined by newlines, with one trailing
newline and a final line ending in a non-whitespace character), the
formatted Output Pane text splits into exactly the documents' lines with
one `---` separator line between consecutive documents: a single parsed
document yields no `---` line at all, `n ≥ 2` documents yield exactly
`n - 1` of them, never leading, never trailing, and the final result
carries no trailing whitespace. -/
theorem claim_C5_yaml_separators {Doc : Type} (E : YamlEngine Doc)
    (s : Session) (docs : List Doc) (bodies : List (List String))
    (hraw : jsTrim s.inputDoc ≠ "")
    (hload : E.loadAll (jsTrim s.inputDoc) = .ok docs)
    (hmap : docs.map E.dump = bodies.map mkDump)
    (hdne : docs ≠ [])
    (hb : ∀ b ∈ bodies, b ≠ [])
    (hnl : ∀ b ∈ bodies, ∀ line ∈ b, '\n' ∉ line.data)
    (hsep : ∀ b ∈ bodies, ∀ line ∈ b, line ≠ "---")
    (hlastc : ∃ bl line c, bodies.getLast? = some bl ∧ bl.getLast? = some line ∧
      line.data.getLast? = some c ∧ jsIsWs c = false) :
    jsSplitLines ((processYAML E s).outputDoc) = multiDocLines bodies ∧
    (docs.length = 1 →
      List.count "---" (jsSplitLines ((processYAML E s).outputDoc)) = 0) ∧
    (2 ≤ docs.length →
      List.count "---" (jsSplitLines ((processYAML E s).outputDoc)) =
        docs.length - 1) ∧
    (jsSplitLines ((processYAML E s).outputDoc)).head? ≠ some "---" ∧
    (jsSplitLines ((processYAML E s).outputDoc)).getLast? ≠ some "---" ∧
    jsTrimEnd ((processYAML E s).outputDoc) = (processYAML E s).outputDoc := by
  have hlen : docs.length = bodies.length := by
    have := congrArg List.length hmap
    simpa using this
  have hbne : bodies ≠ [] := by
    intro hcon
    rw [hcon] at hlen
    cases docs with
    | nil => exact hdne rfl
    | cons d ds => cases hlen
  have hfmt := yamlFormattedOf E docs hmap hdne hb hlastc
  have hout : (processYAML E s).outputDoc =
      jsJoin "\n" (multiDocLines bodies) := by
    rw [processYAML, if_neg hraw]
    simp only [hload]
    simp only [setOutputDoc_outputDoc]
    exact hfmt
  have hmdlnl : ∀ line ∈ multiDocLines bodies, '\n' ∉ line.data := by
    intro line hline
    rcases multiDocLines_mem hline with rfl | ⟨b, hbm, hlm⟩
    · decide
    · exact hnl b hbm line hlm
  have hsplit : jsSplitLines ((processYAML E s).outputDoc) =
      multiDocLines bodies := by
    rw [hout]
    exact jsSplitLines_unlines (multiDocLines_ne_nil hbne hb) hmdlnl
  obtain ⟨bl, line, c, hbl, hline, hc, hcw⟩ := hlastc
  have hulast : (jsJoin "\n" (multiDocLines bodies)).data.getLast? = some c := by
    exact unlines_getLast
      (by rw [multiDocLines_getLast?_eq hbl hb, hline]) hc
  refine ⟨hsplit, ?_, ?_, ?_, ?_, ?_⟩
  · intro h1
    rw [hsplit, multiDocLines_count hbne hsep, ← hlen, h1]
  · intro _
    rw [hsplit, multiDocLines_count hbne hsep, hlen]
  · rw [hsplit]
    exact multiDocLines_head hbne hb hsep
  · rw [hsplit]
    exact multiDocLines_getLast hbne hb hsep
  · rw [hout]
    apply String.ext
    rw [jsTrimEnd]
    show trimEndData (jsJoin "\n" (multiDocLines bodies)).data = _
    rw [trimEndData_of_last_not_ws hulast hcw]

/-- C5 witness: the spec's example `a: 1\n---\nb: 2` with an engine that
parses it into two documents dumped as `a: 1\n` and `b: 2\n` produces the
expected line list `[a: 1, ---, b: 2]` — one separator, two documents. -/
theorem claim_C5_witness :
    jsSplitLines ((processYAML
        (⟨fun r => if r = "a: 1\n---\nb: 2" then .ok ["a: 1", "b: 2"]
            else .error ⟨"unexpected", none⟩,
          fun d : String => d ++ "\n"⟩ : YamlEngine String)
        ⟨"a: 1\n---\nb: 2", "", none, none, .idle "", none, true⟩).outputDoc) =
      multiDocLines [["a: 1"], ["b: 2"]] :=
  (claim_C5_yaml_separators
    (⟨fun r => if r = "a: 1\n---\nb: 2" then .ok ["a: 1", "b: 2"]
        else .error ⟨"unexpected", none⟩,
      fun d : String => d ++ "\n"⟩ : YamlEngine String)
    ⟨"a: 1\n---\nb: 2", "", none, none, .idle "", none, true⟩
    ["a: 1", "b: 2"] [["a: 1"], ["b: 2"]]
    (by decide) (by rfl) (by decide) (by decide) (by decide) (by decide)
    (by decide)
    ⟨["b: 2"], "b: 2", '2', by decide, by decide, by decide, by decide⟩).1

/-- C6: the semantic round trip of `processJSON`'s format path — for every
text `T` the modelled `JSON.parse` accepts, parsing the pretty-serialized
form `JSON.stringify(·, null, 2)` of the parse of `T` yields a value equal
to the parse of `T`: key order is preserved and values are unchanged. -/
theorem claim_C6_json_roundtrip (T : String) (v : JVal)
    (h : JSONparse T = .ok v) :
    JSONparse (JSONstringifyPretty v) = .ok v :=
  JSONparse_pretty_roundtrip h

/-- C6 witness: the default document `{"name":"DevFormat","awesome":true}`
parses, and its pretty serialization re-parses to the same value. -/
theorem claim_C6_witness :
    JSONparse "\x7b\"name\":\"DevFormat\",\"awesome\":true\x7d" =
      .ok (.obj [("name", .str "DevFormat"), ("awesome", .bool true)]) ∧
    JSONparse (JSONstringifyPretty
        (.obj [("name", .str "DevFormat"), ("awesome", .bool true)])) =
      .ok (.obj [("name", .str "DevFormat"), ("awesome", .bool true)]) :=
  ⟨rfl, claim_C6_json_roundtrip "\x7b\"name\":\"DevFormat\",\"awesome\":true\x7d" _ rfl⟩
